import Mathlib

/-!
# LikertMakeR: the `lcor` swap optimiser

A shallow embedding of `src/lcor_C.cpp` and `src/lcor_C_randomised.cpp`, of
the scaled score of the draft `notes/lcor_C++_code.cpp`, and the properties
proved about them.

Conventions of the embedding.

* A C++ `double` is an element of a linearly ordered field `R`; a result that
  the C++ arithmetic leaves undefined (the `0/0` of a correlation against a
  column of zero variance, a NaN) is `none` in `Option R`, and a comparison
  with `none` is false, as a comparison with NaN is.
* The definitions that take a `sqrt` (`pearson`, `frobeniusNorm`, `score`,
  `lcor_C`, ...) compute in the exact arithmetic of `R`: no rounding, no
  overflow, no underflow.  The same loops with the score left to any function
  `sc` are `swapStepWith`, ..., `lcor_C_with`, `lcor_C_randomised_with`; what is
  proved of them holds for the score as binary64 computes it.  `Dbl` is
  binary64 itself (rounding to nearest, infinities, NaN), and `scoreD` is the
  score computed in it.
* Matrices (`arma::mat`, `NumericMatrix`, a numeric `DataFrame`) are a row
  count, a column count and an accessor `get row col`.
* `std::sqrt` and Armadillo's `is_sympd` are library code: the definitions take
  them as the parameters `sqrt` and `is_sympd`.  `sqrtQ` and `is_sympd_exact`
  are executable stand-ins over `ℚ` used to run the model on concrete data.
-/

namespace LikertMakeR

/-! ## Matrices -/

/-- A dense matrix: `get i c` is the C++ `m(i, c)`. -/
structure Mat (α : Type) where
  n_rows : Nat
  n_cols : Nat
  get : Nat → Nat → α

namespace Mat

variable {α : Type}

/-- Column `c`, rows `0 .. n_rows - 1` in order. -/
def col (m : Mat α) (c : Nat) : List α :=
  (List.range m.n_rows).map fun i => m.get i c

/-- The assignment `m(i, c) = v`. -/
def set (m : Mat α) (i c : Nat) (v : α) : Mat α :=
  { m with get := fun r k => if r = i ∧ k = c then v else m.get r k }

/-- The call `std::swap(m(i, c), m(j, c))`. -/
def swap (m : Mat α) (i j c : Nat) : Mat α :=
  (m.set i c (m.get j c)).set j c (m.get i c)

/-- A matrix given by its columns; cells outside the lists hold `d`. -/
def ofCols (d : α) (n_rows : Nat) (cols : List (List α)) : Mat α :=
  ⟨n_rows, cols.length, fun i c => (cols.getD c []).getD i d⟩

end Mat

/-! ## Target validator (`checkIntegrity`, lcor_C.cpp lines 16-56) -/

/-- The message `checkIntegrity` prints before it returns `false`. -/
inductive IntegrityError where
  | notSquare
  | dimMismatch
  | badDiagonal
  | outOfRange
  | notSymmetric
  | notPosDef
  deriving DecidableEq, Repr

section Validator

variable {R : Type} [LinearOrderedField R]

/-- The inner loop `for j` of `checkIntegrity` (lines 36-45), over the
remaining values of `j`. -/
def checkEntries (target : Mat R) (i : Nat) : List Nat → Option IntegrityError
  | [] => none
  | j :: js =>
    if target.get i j < -1 ∨ target.get i j > 1 then some IntegrityError.outOfRange
    else if i ≠ j ∧ target.get i j ≠ target.get j i then some IntegrityError.notSymmetric
    else checkEntries target i js

/-- The outer loop `for i` of `checkIntegrity` (lines 31-46), over the
remaining values of `i`. -/
def checkRows (target : Mat R) (n : Nat) : List Nat → Option IntegrityError
  | [] => none
  | i :: rest =>
    if target.get i i ≠ 1 then some IntegrityError.badDiagonal
    else
      match checkEntries target i (List.range n) with
      | some e => some e
      | none => checkRows target n rest

/-- The body of `checkIntegrity` with the printed message as result: `none`
when the function returns `true`. -/
def checkIntegrityReport (is_sympd : Mat R → Bool) (data target : Mat R) :
    Option IntegrityError :=
  let n := target.n_rows
  if n ≠ target.n_cols then some IntegrityError.notSquare
  else if data.n_cols ≠ n then some IntegrityError.dimMismatch
  else
    match checkRows target n (List.range n) with
    | some e => some e
    | none => if ¬ is_sympd target = true then some IntegrityError.notPosDef else none

/-- The boolean returned by `checkIntegrity`. -/
def checkIntegrity (is_sympd : Mat R → Bool) (data target : Mat R) : Bool :=
  (checkIntegrityReport is_sympd data target).isNone

/-- The validator's checks in the order in which the nested loops of
`checkIntegrity` reach them: for each row `i`, the diagonal entry, then for
each `j` the range of `target(i, j)` followed by its symmetry. -/
def scanChecks (target : Mat R) (n : Nat) : List (Bool × IntegrityError) :=
  (List.range n).flatMap fun i =>
    (decide (target.get i i ≠ 1), IntegrityError.badDiagonal) ::
      (List.range n).flatMap fun j =>
        [(decide (target.get i j < -1 ∨ target.get i j > 1), IntegrityError.outOfRange),
         (decide (i ≠ j ∧ target.get i j ≠ target.get j i), IntegrityError.notSymmetric)]

/-- Every check of the validator, paired with its failure reason, in the order
of evaluation; the flag is `true` when the check is violated. -/
def allChecks (is_sympd : Mat R → Bool) (data target : Mat R) : List (Bool × IntegrityError) :=
  (decide (target.n_rows ≠ target.n_cols), IntegrityError.notSquare) ::
  (decide (data.n_cols ≠ target.n_rows), IntegrityError.dimMismatch) ::
  (scanChecks target target.n_rows ++ [(!is_sympd target, IntegrityError.notPosDef)])

/-- Elimination steps of a Cholesky factorisation without the square roots:
the pivot must be positive, then the Schur complement is examined. -/
def pivotsPositive : Nat → Nat → (Nat → Nat → R) → Bool
  | 0, _, _ => true
  | f + 1, k, a =>
    decide (0 < a k k) && pivotsPositive f (k + 1) fun i j => a i j - a i k * a k j / a k k

/-- Modelled from the spec: Armadillo's `Mat::is_sympd` is library code absent
from the sources.  Section 2 of the spec and the code that calls it (the
comment of line 48, the message of line 51) name it the test for a symmetric
positive-definite matrix; the model is the exact test: the matrix is
non-empty, symmetric, and its Cholesky elimination meets only positive pivots
(no tolerance).  `is_sympd_exact_two` spells it out for 2×2 matrices. -/
def is_sympd_exact (m : Mat R) : Bool :=
  decide (m.n_rows ≠ 0) && decide (m.n_rows = m.n_cols) &&
  (List.range m.n_rows).all (fun i => (List.range m.n_rows).all fun j =>
    decide (m.get i j = m.get j i)) &&
  pivotsPositive m.n_rows 0 m.get

namespace Randomised

/-- The inner loop `for j` of `checkIntegrity` in lcor_C_randomised.cpp (lines
19-22), over the remaining values of `j`: `false` when the function returns
`false` from inside the loop. -/
def checkEntries (target : Mat R) (i : Nat) : List Nat → Bool
  | [] => true
  | j :: js =>
    if target.get i j < -1 ∨ target.get i j > 1 ∨ target.get i j ≠ target.get j i then false
    else checkEntries target i js

/-- The outer loop `for i` of `checkIntegrity` in lcor_C_randomised.cpp (lines
17-23), over the remaining values of `i`. -/
def checkRows (target : Mat R) (n : Nat) : List Nat → Bool
  | [] => true
  | i :: rest =>
    if target.get i i ≠ 1 then false
    else if checkEntries target i (List.range n) = false then false
    else checkRows target n rest

/-- The function `checkIntegrity` of lcor_C_randomised.cpp (lines 13-26). -/
def checkIntegrity (is_sympd : Mat R → Bool) (data target : Mat R) : Bool :=
  let n := target.n_rows
  if n ≠ target.n_cols ∨ data.n_cols ≠ n then false
  else if checkRows target n (List.range n) = false then false
  else is_sympd target

end Randomised

end Validator

/-! ## Correlation engine and distance metric -/

section Model

variable {R : Type} [LinearOrderedField R]

/-- The exact sum `f 0 + ... + f (n - 1)` of the terms a loop `for k < n` adds
up: an element of the field `R`, independent of the order of the terms.  The
sum as accumulated in binary64 is `colSumD`. -/
def colSum (n : Nat) (f : Nat → R) : R := ((List.range n).map f).sum

/-- The variance term `n * sum_x2 - sum_x * sum_x` of column `c`. -/
def varTerm (X : Mat R) (c : Nat) : R :=
  (X.n_rows : R) * colSum X.n_rows (fun k => X.get k c * X.get k c)
    - colSum X.n_rows (fun k => X.get k c) * colSum X.n_rows (fun k => X.get k c)

/-- Modelled from the spec: Armadillo's `cor` is library code absent from the
sources.  Section 4.1 of the spec gives the Pearson formula
`(n Σxy − Σx Σy) / sqrt((n Σx² − (Σx)²)(n Σy² − (Σy)²))`, which is also the
computation begun by `cor_cpp` in notes/lcorC.cpp (lines 63-83).  A zero
denominator is the undefined `0/0` of a zero-variance column: `none`.  The
formula is the contract of the spec for at least two rows; what the library
does with a single row is not part of the model.  The formula is evaluated in
the exact arithmetic of `R` (`pearsonD` evaluates it in binary64).  Section 4.1
also asks for a zero variance to be signalled; the call of line 62 has no error
path, and the model follows the code: the result is the undefined value, and
nothing is raised. -/
def pearson (sqrt : R → R) (X : Mat R) (i j : Nat) : Option R :=
  let n : R := (X.n_rows : R)
  let sum_xy := colSum X.n_rows fun k => X.get k i * X.get k j
  let sum_x := colSum X.n_rows fun k => X.get k i
  let sum_y := colSum X.n_rows fun k => X.get k j
  let numerator := n * sum_xy - sum_x * sum_y
  let denominator := sqrt (varTerm X i * varTerm X j)
  if denominator = 0 then none else some (numerator / denominator)

/-- The function `computeCorrelation` (lcor_C.cpp lines 60-63): the
`n_cols × n_cols` correlation matrix of the columns of `data`. -/
def computeCorrelation (sqrt : R → R) (data : Mat R) : Mat (Option R) :=
  ⟨data.n_cols, data.n_cols, fun i j => pearson sqrt data i j⟩

/-- Addition of two doubles either of which may be undefined. -/
def addD : Option R → Option R → Option R
  | some a, some b => some (a + b)
  | _, _ => none

/-- The cells of a matrix in storage (column-major) order. -/
def entries {α : Type} (m : Mat α) : List α :=
  (List.range m.n_cols).flatMap fun j => (List.range m.n_rows).map fun i => m.get i j

/-- Armadillo's `accu`: the sum of all cells. -/
def accu (m : Mat (Option R)) : Option R := (entries m).foldl addD (some 0)

/-- The function `frobeniusNorm` (lcor_C.cpp lines 66-69):
`diff = A - B; return sqrt(accu(diff % diff))`, over the cells of `A`
(`lcor_C` calls it only with matrices of one size), in the exact arithmetic of
`R`; `frobeniusNormWith` is the same function over any arithmetic and
`frobeniusNormD` over binary64. -/
def frobeniusNorm (sqrt : R → R) (A : Mat (Option R)) (B : Mat R) : Option R :=
  let diff : Mat (Option R) :=
    ⟨A.n_rows, A.n_cols, fun i j => (A.get i j).map fun a => a - B.get i j⟩
  let sq : Mat (Option R) :=
    ⟨diff.n_rows, diff.n_cols, fun i j => (diff.get i j).map fun d => d * d⟩
  (accu sq).map sqrt

/-- The C++ comparison `a >= b` of two doubles: false when either is NaN. -/
def geD : Option R → Option R → Bool
  | some a, some b => decide (b ≤ a)
  | _, _ => false

/-- The score of a data matrix: `frobeniusNorm(computeCorrelation(data), target)`. -/
def score (sqrt : R → R) (target data : Mat R) : Option R :=
  frobeniusNorm sqrt (computeCorrelation sqrt data) target

/-! ## Deterministic optimiser (`lcor_C`, lcor_C.cpp lines 85-145) -/

/-- The two variables the swap loop updates. -/
structure SwapState (R : Type) where
  data_mat : Mat R
  initialFrobNorm : Option R

/-- One execution of the body of the inner loop (lines 121-139) for the
candidate `(i, j)` and the column `col`. -/
def swapStep (sqrt : R → R) (target : Mat R) (i j : Nat) (st : SwapState R) (col : Nat) :
    SwapState R :=
  let temp := st.data_mat.get i col
  let d1 := st.data_mat.set i col (st.data_mat.get j col)
  let d2 := d1.set j col temp
  let newFrobNorm := score sqrt target d2
  if geD newFrobNorm st.initialFrobNorm = true then
    let d3 := d2.set j col (d2.get i col)
    let d4 := d3.set i col temp
    { st with data_mat := d4 }
  else
    { data_mat := d2, initialFrobNorm := newFrobNorm }

/-- The list `swapCandidates` built at lines 109-116. -/
def swapCandidates (nRows : Nat) : List (Nat × Nat) :=
  (List.range nRows).flatMap fun i =>
    (List.range nRows).filterMap fun j => if i ≠ j then some (i, j) else none

/-- The nested loops of lines 119-141 run from the state `st`. -/
def swapLoop (sqrt : R → R) (target : Mat R) (nCols : Nat) (cands : List (Nat × Nat))
    (st : SwapState R) : SwapState R :=
  cands.foldl (fun s r => (List.range nCols).foldl (swapStep sqrt target r.1 r.2) s) st

/-- The state with which `lcor_C` enters the swap loop (line 106). -/
def initState (sqrt : R → R) (data target : Mat R) : SwapState R :=
  ⟨data, score sqrt target data⟩

/-- The state with which `lcor_C` leaves the swap loop. -/
def finalState (sqrt : R → R) (data target : Mat R) : SwapState R :=
  swapLoop sqrt target data.n_cols (swapCandidates data.n_rows) (initState sqrt data target)

/-- The function `lcor_C`.  The data frame has numeric columns by its type;
`stop` is the `error` result. -/
def lcor_C (sqrt : R → R) (is_sympd : Mat R → Bool) (data_df target : Mat R) :
    Except String (Mat R) :=
  if ¬ checkIntegrity is_sympd data_df target = true then
    Except.error "Integrity check failed."
  else
    Except.ok (finalState sqrt data_df target).data_mat

/-- The trials `(i, j, col)` in the order in which the nested loops run them. -/
def swapTrials (nRows nCols : Nat) : List (Nat × Nat × Nat) :=
  (swapCandidates nRows).flatMap fun r => (List.range nCols).map fun col => (r.1, r.2, col)

/-- One execution of the body of the loop `for k` (lines 83-98) for the row
pair `(i, j)` in column `col`. -/
def randStep (sqrt : R → R) (target : Mat R) (col : Nat) (st : SwapState R) (ij : Nat × Nat) :
    SwapState R :=
  if ij.1 = ij.2 then st
  else
    let d := st.data_mat.swap ij.1 ij.2 col
    let newFrobNorm := score sqrt target d
    if geD newFrobNorm st.initialFrobNorm = true then
      { st with data_mat := d.swap ij.1 ij.2 col }
    else
      { data_mat := d, initialFrobNorm := newFrobNorm }

/-- The loop over the columns within one pass (lines 72-100).  The pair
`shuffle col` holds the vectors `i_indices` and `j_indices` after the two
calls of `std::shuffle`; the loop `for k` pairs them position by position. -/
def randPass (sqrt : R → R) (target : Mat R) (nCols : Nat)
    (shuffle : Nat → List Nat × List Nat) (st : SwapState R) : SwapState R :=
  (List.range nCols).foldl
    (fun s col => ((shuffle col).1.zip (shuffle col).2).foldl (randStep sqrt target col) s) st

/-- The loop over the passes (lines 70-101); `shuffles pass col` are the
shuffled index vectors drawn in pass `pass` for column `col`. -/
def randLoop (sqrt : R → R) (target : Mat R) (nCols passes : Nat)
    (shuffles : Nat → Nat → List Nat × List Nat) (st : SwapState R) : SwapState R :=
  (List.range passes).foldl (fun s pass => randPass sqrt target nCols (shuffles pass) s) st

/-- The function `lcor_C_randomised`; the random generator is represented by
the index vectors it produces, and the validator is the `checkIntegrity` of
the same file. -/
def lcor_C_randomised (sqrt : R → R) (is_sympd : Mat R → Bool)
    (shuffles : Nat → Nat → List Nat × List Nat) (data_df target : Mat R) (passes : Nat) :
    Except String (Mat R) :=
  if ¬ Randomised.checkIntegrity is_sympd data_df target = true then
    Except.error "Target correlation matrix failed integrity check."
  else
    Except.ok (randLoop sqrt target data_df.n_cols passes shuffles
      (initState sqrt data_df target)).data_mat

/-- The index vectors are shuffles of `0 .. nRows - 1`, as `std::iota` followed
by `std::shuffle` produces. -/
def ValidShuffles (nRows : Nat) (shuffles : Nat → Nat → List Nat × List Nat) : Prop :=
  ∀ pass col, ((shuffles pass col).1.Perm (List.range nRows)) ∧
    ((shuffles pass col).2.Perm (List.range nRows))

end Model

/-! ## Executable stand-ins over the rationals -/

/-- Binary search for the integer square root: the bits `k - 1 .. 0` are tried
from the most significant. -/
def natSqrtAux (n : Nat) : Nat → Nat → Nat
  | 0, r => r
  | k + 1, r =>
    if (r + 2 ^ k) * (r + 2 ^ k) ≤ n then natSqrtAux n k (r + 2 ^ k) else natSqrtAux n k r

/-- The least `k' ≥ k` with `n < (2 ^ k') ^ 2`, searched for `f` steps. -/
def sqrtBound (n : Nat) : Nat → Nat → Nat
  | 0, k => k
  | f + 1, k => if n < 2 ^ k * 2 ^ k then k else sqrtBound n f (k + 1)

/-- The integer square root, rounded down (`natSqrt_eq`: it is `Nat.sqrt`). -/
def natSqrt (n : Nat) : Nat := natSqrtAux n (sqrtBound n n 0) 0

/-- A square root on `ℚ` with six decimals, rounded up: the least multiple
`s` of `10⁻⁶` with `q ≤ s²` (`le_sqrtQ_sq`, `sqrtQ_least`), and `0` for
`q ≤ 0`.  It is monotone (`sqrtQ_mono`) and exact on the square of a multiple
of `10⁻⁶`. -/
def sqrtQ (q : ℚ) : ℚ :=
  if q ≤ 0 then 0
  else ((natSqrt ((q.num.toNat * 1000000000000 + q.den - 1) / q.den - 1) + 1 : Nat) : ℚ) / 1000000

/-! ## Predicates used in the statements -/

/-- The matrix `m` has the shape of `data` and each of its columns holds the
values of the same column of `data`, possibly in another order. -/
def ColumnsPerm {α : Type} (data m : Mat α) : Prop :=
  m.n_rows = data.n_rows ∧ m.n_cols = data.n_cols ∧ ∀ k, (m.col k).Perm (data.col k)

/-- Every correlation of `X` is defined: no denominator of the Pearson formula
is zero. -/
def CorDefined {R : Type} [LinearOrderedField R] (sqrt : R → R) (X : Mat R) : Prop :=
  ∀ i < X.n_cols, ∀ j < X.n_cols, sqrt (varTerm X i * varTerm X j) ≠ 0

/-- The running score never rises from one value to the next, and both values
are defined. -/
def ScoreStep {R : Type} [LinearOrderedField R] (a b : Option R) : Prop :=
  ∃ x y, a = some x ∧ b = some y ∧ y ≤ x

/-! ## Concrete inputs -/

/-- The data of the end-to-end scenario of the spec: six rows, columns
`1 .. 6` and `6 .. 1`. -/
def scenarioData : Mat ℚ := Mat.ofCols 0 6 [[1, 2, 3, 4, 5, 6], [6, 5, 4, 3, 2, 1]]

/-- The 2×2 identity target. -/
def identityTarget : Mat ℚ := Mat.ofCols 0 2 [[1, 0], [0, 1]]

/-- Two rows and a single column `(1, 2)`. -/
def singleColData : Mat ℚ := Mat.ofCols 0 2 [[1, 2]]

/-- The 1×1 target `[[1]]`. -/
def unitTarget : Mat ℚ := Mat.ofCols 0 1 [[1]]

/-- Two rows, two columns: `(1, 2)` and `(2, 1)`. -/
def twoColData : Mat ℚ := Mat.ofCols 0 2 [[1, 2], [2, 1]]

/-- A square 2×2 target whose entry `(0, 1)` is out of range and whose
diagonal entry `(1, 1)` is not 1. -/
def rangeBeforeDiagTarget : Mat ℚ := Mat.ofCols 0 2 [[1, 5], [5, 2]]

/-- A valid 2×2 target asking for a correlation of one half. -/
def halfTarget : Mat ℚ := Mat.ofCols 0 2 [[1, 1 / 2], [1 / 2, 1]]

/-- The index vectors `(1, 0)` and `(0, 1)` in every pass and for every column. -/
def fixedShuffles : Nat → Nat → List Nat × List Nat := fun _ _ => ([1, 0], [0, 1])

/-- The 2×2 target whose four entries are 1, over any field. -/
def onesTarget (R : Type) [LinearOrderedField R] : Mat R := Mat.ofCols 0 2 [[1, 1], [1, 1]]

/-! ## Further concrete inputs -/

/-- Three rows, two columns: column 0 holds the value 5 in every row (zero
variance), column 1 is `(1, 2, 3)`. -/
def constColData : Mat ℚ := Mat.ofCols 0 3 [[5, 5, 5], [1, 2, 3]]

/-! ## The distance metric on defined matrices -/

/-- A matrix of doubles all of which are defined. -/
def Mat.toD {R : Type} (A : Mat R) : Mat (Option R) :=
  ⟨A.n_rows, A.n_cols, fun i j => some (A.get i j)⟩

/-- The sum `Σ (A(i,j) − B(i,j))²` over the cells of `A`. -/
def sqDist {R : Type} [LinearOrderedField R] (A B : Mat R) : R :=
  (entries (⟨A.n_rows, A.n_cols,
    fun i j => (A.get i j - B.get i j) * (A.get i j - B.get i j)⟩ : Mat R)).sum

/-- The constant `multiplier` (notes/lcor_C++_code.cpp line 9). -/
def multiplier : Int := 10000

/-- The conversion of a `double` to `int` in an initialisation or an
assignment: the fractional part is discarded.  (The 32-bit range of `int` is
not modelled: a sum of absolute differences of correlations times 10000 stays
far below it.) -/
def toInt (x : ℚ) : Int := Int.tdiv x.num x.den

/-- Modelled from the spec: `sum`, `abs`, `cor` and the subtraction of matrices
are called by the draft and defined nowhere in the sources.  Section 4.3 of the
spec: the sum of absolute differences `Σ |target[i][j] − current[i][j]|` over
all cells. -/
def sumAbsDiff {R : Type} [LinearOrderedField R] (target : Mat R) (current : Mat (Option R)) :
    Option R :=
  accu (⟨current.n_rows, current.n_cols,
    fun i j => (current.get i j).map fun c => |target.get i j - c|⟩ : Mat (Option R))

/-- The value held by `int diff_score` after line 20 or line 54,
`diff_score = sum(abs(target_cor - current_cor)) * multiplier`, when the sum of
absolute differences of the current state is `s`. -/
def diff_score (s : ℚ) : Int := toInt (s * (multiplier : ℚ))

/-- The test of line 52,
`sum(abs(target_cor - cor(current_dat))) * multiplier < diff_score`, when the
sum of absolute differences of the trial state is `newSum`: the product is a
`double` and the `int` on the right is converted to `double`. -/
def lcorDraftAccepts (newSum : ℚ) (diffScore : Int) : Bool :=
  decide (newSum * (multiplier : ℚ) < (diffScore : ℚ))

/-- Six rows, two columns, both `1 .. 6`. -/
def draftData : Mat ℚ := Mat.ofCols 0 6 [[1, 2, 3, 4, 5, 6], [1, 2, 3, 4, 5, 6]]

/-- A valid 2×2 target with correlation `84999 / 87500`. -/
def draftTarget : Mat ℚ := Mat.ofCols 0 2 [[1, 84999 / 87500], [84999 / 87500, 1]]

/-! ## Binary64 arithmetic -/

/-- The number of binary digits of `n`, counted in at most `f` steps; a step
drops 256 digits, 16 digits or one digit. -/
def bitLenAux : Nat → Nat → Nat
  | 0, _ => 0
  | f + 1, n =>
    if n = 0 then 0
    else if 2 ^ 256 ≤ n then bitLenAux f (n / 2 ^ 256) + 256
    else if 2 ^ 16 ≤ n then bitLenAux f (n / 2 ^ 16) + 16
    else bitLenAux f (n / 2) + 1

/-- The number of binary digits of `n`: `2 ^ (bitLen n - 1) ≤ n < 2 ^ bitLen n`
for `n > 0`. -/
def bitLen (n : Nat) : Nat := bitLenAux n n

/-- The test `d * 2 ^ e ≤ n` for an exponent of either sign. -/
def scaledLe (d : Nat) (e : Int) (n : Nat) : Bool :=
  if 0 ≤ e then decide (d * 2 ^ e.toNat ≤ n) else decide (d ≤ n * 2 ^ (-e).toNat)

/-- The exponent `e` with `2 ^ e ≤ n / d < 2 ^ (e + 1)`, for `n, d > 0`. -/
def ilog2 (n d : Nat) : Int :=
  let e : Int := (bitLen n : Int) - (bitLen d : Int)
  if scaledLe d e n = true then e else e - 1

/-- The integer nearest to `n / d`; a tie goes to the even neighbour. -/
def roundHalfEven (n d : Nat) : Nat :=
  if 2 * (n % d) < d then n / d
  else if d < 2 * (n % d) then n / d + 1
  else if (n / d) % 2 = 0 then n / d else n / d + 1

/-- The rational `m * 2 ^ e` for an exponent of either sign. -/
def scaleTwo (m : Nat) (e : Int) : ℚ :=
  if 0 ≤ e then ((m * 2 ^ e.toNat : Nat) : ℚ) else (m : ℚ) / ((2 ^ (-e).toNat : Nat) : ℚ)

/-- A C++ `double` (IEEE 754 binary64): NaN, an infinity with its sign, or a
finite value.  The sign of a zero and the payload of a NaN are not
represented. -/
inductive Dbl where
  | nan
  | inf (negative : Bool)
  | fin (q : ℚ)
  deriving DecidableEq

namespace Dbl

/-- Rounding of a real result to binary64, to nearest with ties to even: 53
significant bits, least exponent -1022 (below it the spacing stays
`2 ^ -1074`), and an infinity when the rounded value reaches `2 ^ 1024`. -/
def round (q : ℚ) : Dbl :=
  if q = 0 then fin 0
  else
    let n := q.num.natAbs
    let d := q.den
    let qe : Int := max (ilog2 n d) (-1022) - 52
    let m := if 0 ≤ qe then roundHalfEven n (d * 2 ^ qe.toNat)
      else roundHalfEven (n * 2 ^ (-qe).toNat) d
    let v := scaleTwo m qe
    if (2 : ℚ) ^ 1024 ≤ v then inf (decide (q < 0))
    else fin (if q < 0 then -v else v)

/-- The sum `a + b` of two doubles. -/
def add : Dbl → Dbl → Dbl
  | fin a, fin b => round (a + b)
  | fin _, inf s => inf s
  | inf s, fin _ => inf s
  | inf s, inf t => if s = t then inf s else nan
  | _, _ => nan

/-- The negation `-a`. -/
def neg : Dbl → Dbl
  | fin a => fin (-a)
  | inf s => inf (!s)
  | nan => nan

/-- The difference `a - b`. -/
def sub (a b : Dbl) : Dbl := add a (neg b)

/-- The product `a * b`. -/
def mul : Dbl → Dbl → Dbl
  | fin a, fin b => round (a * b)
  | fin a, inf s => if a = 0 then nan else inf (xor (decide (a < 0)) s)
  | inf s, fin b => if b = 0 then nan else inf (xor s (decide (b < 0)))
  | inf s, inf t => inf (xor s t)
  | _, _ => nan

/-- The quotient `a / b`; `0 / 0` and `inf / inf` are NaN, and a non-zero value
divided by zero is an infinity with the sign of the dividend (a zero has no
sign here). -/
def div : Dbl → Dbl → Dbl
  | fin a, fin b =>
    if b = 0 then (if a = 0 then nan else inf (decide (a < 0))) else round (a / b)
  | fin _, inf _ => fin 0
  | inf s, fin b => inf (xor s (decide (b < 0)))
  | _, _ => nan

/-- The call `std::sqrt(a)`, correctly rounded. -/
def sqrt : Dbl → Dbl
  | nan => nan
  | inf s => if s = true then nan else inf false
  | fin q =>
    if q < 0 then nan
    else if q = 0 then fin 0
    else
      let n := q.num.natAbs
      let d := q.den
      let qe : Int := ilog2 n d / 2 - 52
      let tn := if 0 ≤ qe then n else n * 4 ^ (-qe).toNat
      let td := if 0 ≤ qe then d * 4 ^ qe.toNat else d
      let f := natSqrt (tn / td)
      let m := if (2 * f + 1) * (2 * f + 1) * td < 4 * tn then f + 1
        else if 4 * tn < (2 * f + 1) * (2 * f + 1) * td then f
        else if f % 2 = 0 then f else f + 1
      fin (scaleTwo m qe)

end Dbl

/-! ## The distance metric and the correlation in binary64 -/

/-- The function `frobeniusNorm` (lcor_C.cpp lines 66-69) over any arithmetic:
`sqd a b` is the cell of `diff % diff` computed from the cells `a` of `A` and
`b` of `B` (the difference `a - b` multiplied by itself), `add` and `zero`
accumulate the cells in `accu`, and `sqrt` is `std::sqrt`. -/
def frobeniusNormWith {C S : Type} (sqd : C → C → S) (add : S → S → S) (zero : S)
    (sqrt : S → S) (A B : Mat C) : S :=
  sqrt ((entries (⟨A.n_rows, A.n_cols, fun i j => sqd (A.get i j) (B.get i j)⟩ : Mat S)).foldl
    add zero)

/-- The cell of `diff % diff` in binary64. -/
def Dbl.sqDiff (a b : Dbl) : Dbl := Dbl.mul (Dbl.sub a b) (Dbl.sub a b)

/-- The function `frobeniusNorm` in binary64. -/
def frobeniusNormD (A B : Mat Dbl) : Dbl :=
  frobeniusNormWith Dbl.sqDiff Dbl.add (Dbl.fin 0) Dbl.sqrt A B

/-- A sum accumulated in binary64 by a loop `for k < n`, from `0.0`. -/
def colSumD (n : Nat) (f : Nat → Dbl) : Dbl := ((List.range n).map f).foldl Dbl.add (Dbl.fin 0)

/-- Modelled from the spec: the Pearson formula of section 4.1 (see `pearson`)
evaluated in binary64, with the five sums accumulated row by row as in the loop
of `cor_cpp` (notes/lcorC.cpp lines 69-83).  A cell of the data is read as the
double nearest to it. -/
def pearsonD (X : Mat ℚ) (i j : Nat) : Dbl :=
  let n := Dbl.round (X.n_rows : ℚ)
  let sum_xy := colSumD X.n_rows fun k => Dbl.mul (Dbl.round (X.get k i)) (Dbl.round (X.get k j))
  let sum_x := colSumD X.n_rows fun k => Dbl.round (X.get k i)
  let sum_y := colSumD X.n_rows fun k => Dbl.round (X.get k j)
  let sum_x2 := colSumD X.n_rows fun k => Dbl.mul (Dbl.round (X.get k i)) (Dbl.round (X.get k i))
  let sum_y2 := colSumD X.n_rows fun k => Dbl.mul (Dbl.round (X.get k j)) (Dbl.round (X.get k j))
  let numerator := Dbl.sub (Dbl.mul n sum_xy) (Dbl.mul sum_x sum_y)
  let denominator := Dbl.sqrt (Dbl.mul (Dbl.sub (Dbl.mul n sum_x2) (Dbl.mul sum_x sum_x))
    (Dbl.sub (Dbl.mul n sum_y2) (Dbl.mul sum_y sum_y)))
  Dbl.div numerator denominator

/-- The function `computeCorrelation` in binary64. -/
def computeCorrelationD (data : Mat ℚ) : Mat Dbl :=
  ⟨data.n_cols, data.n_cols, fun i j => pearsonD data i j⟩

/-- A double as a score: `none` for NaN; an infinity is placed beyond the
finite doubles. -/
def Dbl.toOption : Dbl → Option ℚ
  | Dbl.nan => none
  | Dbl.inf s => some (if s = true then -(2 ^ 1024) else 2 ^ 1024)
  | Dbl.fin q => some q

/-- The score `frobeniusNorm(computeCorrelation(data), target)` in binary64. -/
def scoreD (target data : Mat ℚ) : Option ℚ :=
  (frobeniusNormD (computeCorrelationD data)
    ⟨target.n_rows, target.n_cols, fun i j => Dbl.round (target.get i j)⟩).toOption

/-! ## The optimisers over the score as it is computed -/

section ComputedScore

variable {R : Type} [LinearOrderedField R]

/-- One execution of the body of the inner loop of `lcor_C` (lines 121-139) for
the candidate `(i, j)` and the column `col`.  The function `sc` gives the double
that the call `frobeniusNorm(computeCorrelation(d), as<mat>(target))` of lines
106 and 130 returns for the data `d`, in whatever arithmetic it is computed:
`none` for a NaN, otherwise its value (an infinite double is any element of `R`
beyond the finite doubles: the loop only compares scores). -/
def swapStepWith (sc : Mat R → Option R) (i j : Nat) (st : SwapState R) (col : Nat) :
    SwapState R :=
  let temp := st.data_mat.get i col
  let d1 := st.data_mat.set i col (st.data_mat.get j col)
  let d2 := d1.set j col temp
  let newFrobNorm := sc d2
  if geD newFrobNorm st.initialFrobNorm = true then
    let d3 := d2.set j col (d2.get i col)
    let d4 := d3.set i col temp
    { st with data_mat := d4 }
  else
    { data_mat := d2, initialFrobNorm := newFrobNorm }

/-- The nested loops of lines 119-141 run from the state `st`. -/
def swapLoopWith (sc : Mat R → Option R) (nCols : Nat) (cands : List (Nat × Nat))
    (st : SwapState R) : SwapState R :=
  cands.foldl (fun s r => (List.range nCols).foldl (swapStepWith sc r.1 r.2) s) st

/-- The state with which `lcor_C` enters the swap loop (line 106). -/
def initStateWith (sc : Mat R → Option R) (data : Mat R) : SwapState R := ⟨data, sc data⟩

/-- The state with which `lcor_C` leaves the swap loop. -/
def finalStateWith (sc : Mat R → Option R) (data : Mat R) : SwapState R :=
  swapLoopWith sc data.n_cols (swapCandidates data.n_rows) (initStateWith sc data)

/-- The function `lcor_C` with the score computed by `sc`. -/
def lcor_C_with (sc : Mat R → Option R) (is_sympd : Mat R → Bool) (data_df target : Mat R) :
    Except String (Mat R) :=
  if ¬ checkIntegrity is_sympd data_df target = true then
    Except.error "Integrity check failed."
  else
    Except.ok (finalStateWith sc data_df).data_mat

/-- The states of the run: the initial state, then the state after each trial. -/
def stateTraceWith (sc : Mat R → Option R) (data : Mat R) : List (SwapState R) :=
  (swapTrials data.n_rows data.n_cols).scanl
    (fun s t => swapStepWith sc t.1 t.2.1 s t.2.2) (initStateWith sc data)

/-- The values taken by the running score `initialFrobNorm` during the run. -/
def scoreTraceWith (sc : Mat R → Option R) (data : Mat R) : List (Option R) :=
  (stateTraceWith sc data).map fun s => s.initialFrobNorm

/-- The tentative states of the run: for each trial `(i, j, col)`, the data
matrix right after the exchange of lines 125-127, on which line 130 evaluates
the correlation, whether or not the exchange is kept. -/
def tentativeTraceWith (sc : Mat R → Option R) (data : Mat R) : List (Mat R) :=
  ((stateTraceWith sc data).zip (swapTrials data.n_rows data.n_cols)).map
    fun p => p.1.data_mat.swap p.2.1 p.2.2.1 p.2.2.2

/-- One execution of the body of the loop `for k` of `lcor_C_randomised` (lines
83-98) for the row pair `(i, j)` in column `col`, with the score computed by
`sc`. -/
def randStepWith (sc : Mat R → Option R) (col : Nat) (st : SwapState R) (ij : Nat × Nat) :
    SwapState R :=
  if ij.1 = ij.2 then st
  else
    let d := st.data_mat.swap ij.1 ij.2 col
    let newFrobNorm := sc d
    if geD newFrobNorm st.initialFrobNorm = true then
      { st with data_mat := d.swap ij.1 ij.2 col }
    else
      { data_mat := d, initialFrobNorm := newFrobNorm }

/-- The loop over the columns within one pass (lines 72-100). -/
def randPassWith (sc : Mat R → Option R) (nCols : Nat)
    (shuffle : Nat → List Nat × List Nat) (st : SwapState R) : SwapState R :=
  (List.range nCols).foldl
    (fun s col => ((shuffle col).1.zip (shuffle col).2).foldl (randStepWith sc col) s) st

/-- The loop over the passes (lines 70-101). -/
def randLoopWith (sc : Mat R → Option R) (nCols passes : Nat)
    (shuffles : Nat → Nat → List Nat × List Nat) (st : SwapState R) : SwapState R :=
  (List.range passes).foldl (fun s pass => randPassWith sc nCols (shuffles pass) s) st

/-- The function `lcor_C_randomised` with the score computed by `sc`. -/
def lcor_C_randomised_with (sc : Mat R → Option R) (is_sympd : Mat R → Bool)
    (shuffles : Nat → Nat → List Nat × List Nat) (data_df target : Mat R) (passes : Nat) :
    Except String (Mat R) :=
  if ¬ Randomised.checkIntegrity is_sympd data_df target = true then
    Except.error "Target correlation matrix failed integrity check."
  else
    Except.ok (randLoopWith sc data_df.n_cols passes shuffles (initStateWith sc data_df)).data_mat

/-- The states of the randomised run at the pass boundaries. -/
def passTraceWith (sc : Mat R → Option R) (shuffles : Nat → Nat → List Nat × List Nat)
    (data : Mat R) (passes : Nat) : List (SwapState R) :=
  (List.range passes).scanl
    (fun s pass => randPassWith sc data.n_cols (shuffles pass) s) (initStateWith sc data)

end ComputedScore

/-! ## Inputs at the edge of the range of binary64 -/

/-- Three rows, two columns: `(2^600, 2·2^600, 3·2^600)`, whose squares exceed
the largest double, and `(1, 3, 2)`.  Every cell is a double. -/
def overflowData : Mat ℚ :=
  Mat.ofCols 0 3 [[2 ^ 600, 2 * 2 ^ 600, 3 * 2 ^ 600], [1, 3, 2]]

/-- The index vectors `(1, 2, 0)` and `(0, 1, 2)` in every pass and for every
column. -/
def rotationShuffles : Nat → Nat → List Nat × List Nat := fun _ _ => ([1, 2, 0], [0, 1, 2])

/-- Three rows, two columns: the doubles nearest to `0.1`, `0.2`, `0.3`, and
`(1, 3, 2)`. -/
def tenthsData : Mat ℚ :=
  Mat.ofCols 0 3 [[3602879701896397 / 36028797018963968, 3602879701896397 / 18014398509481984,
    5404319552844595 / 18014398509481984], [1, 3, 2]]

/-! ## An input with equal values in the first column -/

section ValidatorProofs

variable {R : Type} [LinearOrderedField R]

theorem checkEntries_eq_none_iff (target : Mat R) (i : Nat) (js : List Nat) :
    checkEntries target i js = none ↔
      ∀ j ∈ js, (-1 ≤ target.get i j ∧ target.get i j ≤ 1) ∧
        (i ≠ j → target.get i j = target.get j i) := by
  induction js with
  | nil => simp [checkEntries]
  | cons j js ih =>
    simp only [checkEntries, List.mem_cons, forall_eq_or_imp]
    by_cases h1 : target.get i j < -1 ∨ target.get i j > 1
    · rw [if_pos h1]
      constructor
      · intro h; cases h
      · rintro ⟨⟨⟨ha, hb⟩, _⟩, _⟩
        rcases h1 with h1 | h1
        · exact absurd ha (not_le.mpr h1)
        · exact absurd hb (not_le.mpr h1)
    · rw [if_neg h1]
      have h1' : -1 ≤ target.get i j ∧ target.get i j ≤ 1 := by
        constructor
        · exact not_lt.mp fun h => h1 (Or.inl h)
        · exact not_lt.mp fun h => h1 (Or.inr h)
      by_cases h2 : i ≠ j ∧ target.get i j ≠ target.get j i
      · rw [if_pos h2]
        constructor
        · intro h; cases h
        · rintro ⟨⟨_, hs⟩, _⟩
          exact absurd (hs h2.1) h2.2
      · rw [if_neg h2, ih]
        constructor
        · intro h
          refine ⟨⟨h1', ?_⟩, h⟩
          intro hij
          by_contra hne
          exact h2 ⟨hij, hne⟩
        · exact fun h => h.2

theorem checkRows_eq_none_iff (target : Mat R) (n : Nat) (rows : List Nat) :
    checkRows target n rows = none ↔
      ∀ i ∈ rows, target.get i i = 1 ∧ checkEntries target i (List.range n) = none := by
  induction rows with
  | nil => simp [checkRows]
  | cons i rest ih =>
    simp only [checkRows, List.mem_cons, forall_eq_or_imp]
    by_cases h1 : target.get i i ≠ 1
    · rw [if_pos h1]
      constructor
      · intro h; cases h
      · rintro ⟨⟨hd, _⟩, _⟩
        exact absurd hd h1
    · have h1' : target.get i i = 1 := not_not.mp h1
      rw [if_neg h1]
      cases hce : checkEntries target i (List.range n) with
      | none => simp [h1', ih]
      | some e => simp

theorem checkEntries_eq_find (target : Mat R) (i : Nat) (js : List Nat) :
    checkEntries target i js =
      ((js.flatMap fun j =>
        [(decide (target.get i j < -1 ∨ target.get i j > 1), IntegrityError.outOfRange),
         (decide (i ≠ j ∧ target.get i j ≠ target.get j i),
           IntegrityError.notSymmetric)]).find? (fun p => p.1)).map (fun p => p.2) := by
  induction js with
  | nil => simp [checkEntries]
  | cons j js ih =>
    simp only [checkEntries, List.flatMap_cons, List.cons_append, List.nil_append,
      List.find?_cons]
    by_cases h1 : target.get i j < -1 ∨ target.get i j > 1
    · simp [h1]
    · by_cases h2 : i ≠ j ∧ target.get i j ≠ target.get j i
      · simp [h1, h2]
      · rw [if_neg h1, if_neg h2, ih]
        simp [h1, h2]

theorem find_append_map {α β : Type} (p : α → Bool) (f : α → β) (l₁ l₂ : List α) :
    ((l₁ ++ l₂).find? p).map f =
      match (l₁.find? p).map f with
      | some e => some e
      | none => (l₂.find? p).map f := by
  rw [List.find?_append]
  cases l₁.find? p <;> simp

theorem checkRows_eq_find (target : Mat R) (n : Nat) (rows : List Nat) :
    checkRows target n rows =
      ((rows.flatMap fun i =>
        (decide (target.get i i ≠ 1), IntegrityError.badDiagonal) ::
          (List.range n).flatMap fun j =>
            [(decide (target.get i j < -1 ∨ target.get i j > 1), IntegrityError.outOfRange),
             (decide (i ≠ j ∧ target.get i j ≠ target.get j i),
               IntegrityError.notSymmetric)]).find? (fun p => p.1)).map (fun p => p.2) := by
  induction rows with
  | nil => simp [checkRows]
  | cons i rest ih =>
    simp only [checkRows, List.flatMap_cons, List.cons_append, List.find?_cons]
    by_cases h1 : target.get i i ≠ 1
    · simp [h1]
    · have hd : decide (target.get i i ≠ 1) = false := decide_eq_false h1
      rw [if_neg h1, hd]
      simp only []
      rw [find_append_map, ← ih, ← checkEntries_eq_find]
      cases checkEntries target i (List.range n) <;> rfl

/-- For a 2×2 matrix the test is the usual one: symmetric, positive corner,
positive determinant. -/
theorem is_sympd_exact_two (m : Mat R) (hr : m.n_rows = 2) (hc : m.n_cols = 2) :
    is_sympd_exact m = true ↔
      m.get 0 1 = m.get 1 0 ∧ 0 < m.get 0 0 ∧
        0 < m.get 0 0 * m.get 1 1 - m.get 0 1 * m.get 1 0 := by
  have hrange : List.range 2 = [0, 1] := rfl
  unfold is_sympd_exact
  rw [hr, hc, hrange]
  simp only [pivotsPositive, List.all_cons, List.all_nil, Bool.and_true, Bool.and_eq_true,
    decide_eq_true_eq, ne_eq, OfNat.ofNat_ne_zero, not_false_eq_true, true_and]
  constructor
  · rintro ⟨⟨h01, _⟩, h00, h11⟩
    refine ⟨h01, h00, ?_⟩
    have := mul_pos h00 h11
    rw [mul_sub, mul_div_cancel₀ _ (ne_of_gt h00)] at this
    linarith
  · rintro ⟨h01, h00, hdet⟩
    refine ⟨⟨h01, h01.symm, trivial⟩, h00, ?_⟩
    have : m.get 1 1 - m.get 1 0 * m.get 0 1 / m.get 0 0
        = (m.get 0 0 * m.get 1 1 - m.get 0 1 * m.get 1 0) / m.get 0 0 := by
      field_simp
      ring
    rw [this]
    exact div_pos hdet h00
end ValidatorProofs

/-! ## Matrices: proofs -/

section MatProofs

variable {α : Type}

@[simp] theorem Mat.set_n_rows (m : Mat α) (i c : Nat) (v : α) :
    (m.set i c v).n_rows = m.n_rows := rfl

@[simp] theorem Mat.set_n_cols (m : Mat α) (i c : Nat) (v : α) :
    (m.set i c v).n_cols = m.n_cols := rfl

@[simp] theorem Mat.swap_n_rows (m : Mat α) (i j c : Nat) :
    (m.swap i j c).n_rows = m.n_rows := rfl

@[simp] theorem Mat.swap_n_cols (m : Mat α) (i j c : Nat) :
    (m.swap i j c).n_cols = m.n_cols := rfl

theorem Mat.ext_get {m₁ m₂ : Mat α} (hr : m₁.n_rows = m₂.n_rows) (hc : m₁.n_cols = m₂.n_cols)
    (hg : ∀ r k, m₁.get r k = m₂.get r k) : m₁ = m₂ := by
  cases m₁
  cases m₂
  simp only [Mat.mk.injEq]
  exact ⟨hr, hc, funext fun r => funext fun k => hg r k⟩

/-- A cell of the matrix after the exchange of rows `i` and `j` in column `c`. -/
theorem Mat.swap_get (m : Mat α) (i j c r k : Nat) :
    (m.swap i j c).get r k = if k = c then m.get (Equiv.swap i j r) c else m.get r k := by
  unfold Mat.swap Mat.set
  simp only
  by_cases hk : k = c
  · subst hk
    by_cases hrj : r = j
    · subst hrj
      simp
    · by_cases hri : r = i
      · subst hri
        simp [hrj]
      · simp [hrj, hri, Equiv.swap_apply_of_ne_of_ne hri hrj]
  · simp [hk]

/-- The two assignments that undo an exchange (lcor_C.cpp lines 134-135) restore
the matrix. -/
theorem Mat.revert_swap (m : Mat α) (i j c : Nat) :
    ((m.swap i j c).set j c ((m.swap i j c).get i c)).set i c (m.get i c) = m := by
  refine Mat.ext_get ?_ ?_ ?_
  · rfl
  · rfl
  intro r k
  unfold Mat.swap Mat.set
  simp only
  by_cases hk : k = c
  · subst hk
    by_cases hri : r = i
    · subst hri
      simp
    · by_cases hrj : r = j
      · subst hrj
        by_cases hij : i = r
        · exact absurd hij.symm hri
        · simp [hri, hij]
      · simp [hri, hrj]
  · simp [hk]

/-- A second `std::swap` of the same cells restores the matrix. -/
theorem Mat.swap_swap (m : Mat α) (i j c : Nat) : (m.swap i j c).swap i j c = m := by
  refine Mat.ext_get ?_ ?_ ?_
  · rfl
  · rfl
  intro r k
  by_cases hk : k = c
  · subst hk
    simp [Mat.swap_get]
  · simp [Mat.swap_get, hk]

theorem range_map_swap_perm (n i j : Nat) (hi : i < n) (hj : j < n) :
    ((List.range n).map (Equiv.swap i j)).Perm (List.range n) := by
  have hlt : ∀ a, a < n → Equiv.swap i j a < n := by
    intro a ha
    rw [Equiv.swap_apply_def]
    split_ifs <;> assumption
  rw [List.perm_ext_iff_of_nodup ((List.nodup_range n).map (Equiv.swap i j).injective)
    (List.nodup_range n)]
  intro a
  simp only [List.mem_map, List.mem_range]
  constructor
  · rintro ⟨b, hb, rfl⟩
    exact hlt b hb
  · intro ha
    exact ⟨Equiv.swap i j a, hlt a ha, Equiv.swap_apply_self i j a⟩

/-- Exchanging two rows of a column permutes that column and leaves the other
columns as they are. -/
theorem Mat.swap_col_perm (m : Mat α) (i j c k : Nat) (hi : i < m.n_rows) (hj : j < m.n_rows) :
    ((m.swap i j c).col k).Perm (m.col k) := by
  unfold Mat.col
  rw [Mat.swap_n_rows]
  by_cases hk : k = c
  · subst hk
    have h1 : (List.range m.n_rows).map (fun r => (m.swap i j k).get r k)
        = ((List.range m.n_rows).map (Equiv.swap i j)).map (fun r => m.get r k) := by
      rw [List.map_map]
      apply List.map_congr_left
      intro r _
      simp [Mat.swap_get]
    rw [h1]
    exact (range_map_swap_perm m.n_rows i j hi hj).map _
  · have h1 : (List.range m.n_rows).map (fun r => (m.swap i j c).get r k)
        = (List.range m.n_rows).map (fun r => m.get r k) := by
      apply List.map_congr_left
      intro r _
      simp [Mat.swap_get, hk]
    rw [h1]

theorem Mat.swap_col_of_ne (m : Mat α) (i j c k : Nat) (hk : k ≠ c) :
    (m.swap i j c).col k = m.col k := by
  unfold Mat.col
  rw [Mat.swap_n_rows]
  apply List.map_congr_left
  intro r _
  simp [Mat.swap_get, hk]

end MatProofs

/-! ## The swap loops: what a trial does to the data -/

section LoopProofs

variable {R : Type} [LinearOrderedField R]

theorem foldl_invariant {σ β : Type} (P : σ → Prop) (f : σ → β → σ) (l : List β)
    (hstep : ∀ s x, x ∈ l → P s → P (f s x)) (init : σ) (h0 : P init) :
    P (l.foldl f init) := by
  induction l generalizing init with
  | nil => exact h0
  | cons x xs ih =>
    rw [List.foldl_cons]
    apply ih
    · intro s y hy hs
      exact hstep s y (List.mem_cons_of_mem _ hy) hs
    · exact hstep init x (List.mem_cons_self _ _) h0

/-- The trial of `lcor_C`: the state is kept when the new score is not lower,
and otherwise the exchanged data and the new score replace it. -/
theorem swapStep_eq (sqrt : R → R) (target : Mat R) (i j : Nat) (st : SwapState R) (col : Nat) :
    swapStep sqrt target i j st col =
      if geD (score sqrt target (st.data_mat.swap i j col)) st.initialFrobNorm = true then st
      else ⟨st.data_mat.swap i j col, score sqrt target (st.data_mat.swap i j col)⟩ := by
  unfold swapStep
  simp only []
  have hsw : (st.data_mat.set i col (st.data_mat.get j col)).set j col (st.data_mat.get i col)
      = st.data_mat.swap i j col := rfl
  rw [hsw]
  split_ifs with h
  · rw [Mat.revert_swap]
  · rfl

/-- The trial of `lcor_C_randomised`. -/
theorem randStep_eq (sqrt : R → R) (target : Mat R) (col : Nat) (st : SwapState R)
    (ij : Nat × Nat) :
    randStep sqrt target col st ij =
      if ij.1 = ij.2 then st
      else if geD (score sqrt target (st.data_mat.swap ij.1 ij.2 col)) st.initialFrobNorm = true
        then st
      else ⟨st.data_mat.swap ij.1 ij.2 col, score sqrt target (st.data_mat.swap ij.1 ij.2 col)⟩ := by
  unfold randStep
  simp only []
  split_ifs with h1 h2
  · rfl
  · rw [Mat.swap_swap]
  · rfl

theorem mem_swapCandidates (n : Nat) (r : Nat × Nat) :
    r ∈ swapCandidates n ↔ r.1 < n ∧ r.2 < n ∧ r.1 ≠ r.2 := by
  obtain ⟨i, j⟩ := r
  unfold swapCandidates
  simp only [List.mem_flatMap, List.mem_range, List.mem_filterMap]
  constructor
  · rintro ⟨a, ha, b, hb, hab⟩
    split_ifs at hab with hne
    · simp only [Option.some.injEq, Prod.mk.injEq] at hab
      obtain ⟨rfl, rfl⟩ := hab
      exact ⟨ha, hb, hne⟩
  · rintro ⟨hi, hj, hne⟩
    refine ⟨i, hi, j, hj, ?_⟩
    rw [if_pos hne]

theorem ColumnsPerm.refl {α : Type} (data : Mat α) : ColumnsPerm data data :=
  ⟨rfl, rfl, fun _ => List.Perm.refl _⟩

theorem ColumnsPerm.swap {α : Type} {data m : Mat α} (h : ColumnsPerm data m) (i j c : Nat)
    (hi : i < data.n_rows) (hj : j < data.n_rows) : ColumnsPerm data (m.swap i j c) := by
  obtain ⟨hr, hc, hp⟩ := h
  refine ⟨hr, hc, fun k => ?_⟩
  exact (Mat.swap_col_perm m i j c k (hr ▸ hi) (hr ▸ hj)).trans (hp k)

theorem swapStep_columnsPerm (sqrt : R → R) (target data : Mat R) (i j col : Nat)
    (st : SwapState R) (hi : i < data.n_rows) (hj : j < data.n_rows)
    (h : ColumnsPerm data st.data_mat) :
    ColumnsPerm data (swapStep sqrt target i j st col).data_mat := by
  rw [swapStep_eq]
  split_ifs
  · exact h
  · exact h.swap i j col hi hj

theorem swapLoop_columnsPerm (sqrt : R → R) (target data : Mat R) (nCols : Nat)
    (st : SwapState R) (h : ColumnsPerm data st.data_mat) :
    ColumnsPerm data
      (swapLoop sqrt target nCols (swapCandidates data.n_rows) st).data_mat := by
  unfold swapLoop
  refine foldl_invariant (fun s => ColumnsPerm data s.data_mat) _ _ ?_ st h
  intro s r hr hs
  rw [mem_swapCandidates] at hr
  refine foldl_invariant (fun s => ColumnsPerm data s.data_mat) _ _ ?_ s hs
  intro s' col _ hs'
  exact swapStep_columnsPerm sqrt target data r.1 r.2 col s' hr.1 hr.2.1 hs'

theorem finalState_columnsPerm (sqrt : R → R) (data target : Mat R) :
    ColumnsPerm data (finalState sqrt data target).data_mat :=
  swapLoop_columnsPerm sqrt target data data.n_cols _ (ColumnsPerm.refl data)

theorem lcor_C_eq_ok (sqrt : R → R) (is_sympd : Mat R → Bool) (data target : Mat R)
    (h : checkIntegrity is_sympd data target = true) :
    lcor_C sqrt is_sympd data target = Except.ok (finalState sqrt data target).data_mat := by
  unfold lcor_C
  rw [if_neg (not_not_intro h)]

theorem lcor_C_randomised_eq_ok (sqrt : R → R) (is_sympd : Mat R → Bool)
    (shuffles : Nat → Nat → List Nat × List Nat) (data target : Mat R) (passes : Nat)
    (h : Randomised.checkIntegrity is_sympd data target = true) :
    lcor_C_randomised sqrt is_sympd shuffles data target passes =
      Except.ok (randLoop sqrt target data.n_cols passes shuffles
        (initState sqrt data target)).data_mat := by
  unfold lcor_C_randomised
  rw [if_neg (not_not_intro h)]

theorem randStep_columnsPerm (sqrt : R → R) (target data : Mat R) (col : Nat)
    (st : SwapState R) (ij : Nat × Nat) (hi : ij.1 < data.n_rows) (hj : ij.2 < data.n_rows)
    (h : ColumnsPerm data st.data_mat) :
    ColumnsPerm data (randStep sqrt target col st ij).data_mat := by
  rw [randStep_eq]
  split_ifs
  · exact h
  · exact h
  · exact h.swap ij.1 ij.2 col hi hj

theorem mem_zip_shuffles {n : Nat} {l₁ l₂ : List Nat} (h₁ : l₁.Perm (List.range n))
    (h₂ : l₂.Perm (List.range n)) {ij : Nat × Nat} (h : ij ∈ l₁.zip l₂) :
    ij.1 < n ∧ ij.2 < n := by
  obtain ⟨i, j⟩ := ij
  have hm := List.of_mem_zip h
  exact ⟨List.mem_range.mp (h₁.subset hm.1), List.mem_range.mp (h₂.subset hm.2)⟩

theorem randLoop_columnsPerm (sqrt : R → R) (target data : Mat R) (nCols passes : Nat)
    (shuffles : Nat → Nat → List Nat × List Nat) (hs : ValidShuffles data.n_rows shuffles)
    (st : SwapState R) (h : ColumnsPerm data st.data_mat) :
    ColumnsPerm data (randLoop sqrt target nCols passes shuffles st).data_mat := by
  unfold randLoop
  refine foldl_invariant (fun s => ColumnsPerm data s.data_mat) _ _ ?_ st h
  intro s pass _ hs1
  unfold randPass
  refine foldl_invariant (fun s => ColumnsPerm data s.data_mat) _ _ ?_ s hs1
  intro s' col _ hs2
  refine foldl_invariant (fun s => ColumnsPerm data s.data_mat) _ _ ?_ s' hs2
  intro s'' ij hij hs3
  have hlt := mem_zip_shuffles (hs pass col).1 (hs pass col).2 hij
  exact randStep_columnsPerm sqrt target data col s'' ij hlt.1 hlt.2 hs3

end LoopProofs

/-! ## Scores: when they are defined and how a trial changes them -/

section ScoreProofs

variable {R : Type} [LinearOrderedField R]

theorem colSum_eq_finset_sum (n : Nat) (f : Nat → R) :
    colSum n f = ∑ k ∈ Finset.range n, f k := by
  unfold colSum
  induction n with
  | zero => simp
  | succ n ih => rw [List.range_succ, List.map_append, List.sum_append, ih,
      Finset.sum_range_succ]; simp

/-- Cauchy-Schwarz: the variance term of a column is never negative. -/
theorem varTerm_nonneg (X : Mat R) (c : Nat) : 0 ≤ varTerm X c := by
  unfold varTerm
  rw [colSum_eq_finset_sum, colSum_eq_finset_sum]
  have h := sq_sum_le_card_mul_sum_sq (s := Finset.range X.n_rows) (f := fun k => X.get k c)
  simp only [Finset.card_range] at h
  have e : ∀ k, X.get k c * X.get k c = X.get k c ^ 2 := fun k => (sq _).symm
  simp only [e]
  nlinarith [h]

theorem colSum_col (X : Mat R) (c : Nat) (g : R → R) :
    colSum X.n_rows (fun k => g (X.get k c)) = ((X.col c).map g).sum := by
  unfold colSum Mat.col
  rw [List.map_map]
  rfl

/-- The variance term of a column depends only on the values the column holds. -/
theorem varTerm_eq_of_perm (A B : Mat R) (c : Nat) (hr : A.n_rows = B.n_rows)
    (hp : (A.col c).Perm (B.col c)) : varTerm A c = varTerm B c := by
  unfold varTerm
  have h1 := colSum_col A c (fun x => x * x)
  have h2 := colSum_col A c (fun x => x)
  have h3 := colSum_col B c (fun x => x * x)
  have h4 := colSum_col B c (fun x => x)
  simp only at h1 h2 h3 h4
  rw [h1, h2, h3, h4, hr, (hp.map _).sum_eq, (hp.map _).sum_eq]

theorem CorDefined.of_columnsPerm {sqrt : R → R} {data m : Mat R} (hm : ColumnsPerm data m)
    (hd : CorDefined sqrt data) : CorDefined sqrt m := by
  intro i hi j hj
  rw [varTerm_eq_of_perm m data i hm.1 (hm.2.2 i), varTerm_eq_of_perm m data j hm.1 (hm.2.2 j)]
  exact hd i (hm.2.1 ▸ hi) j (hm.2.1 ▸ hj)

/-- Columns of non-zero variance have defined correlations, for a square root
that does not vanish on positive numbers. -/
theorem corDefined_of_varTerm_ne_zero (sqrt : R → R) (hsqrt : ∀ x, 0 < x → sqrt x ≠ 0)
    (X : Mat R) (hvar : ∀ c < X.n_cols, varTerm X c ≠ 0) : CorDefined sqrt X := by
  intro i hi j hj
  apply hsqrt
  have h1 : 0 < varTerm X i := lt_of_le_of_ne (varTerm_nonneg X i) (Ne.symm (hvar i hi))
  have h2 : 0 < varTerm X j := lt_of_le_of_ne (varTerm_nonneg X j) (Ne.symm (hvar j hj))
  exact mul_pos h1 h2

theorem pearson_isSome_iff (sqrt : R → R) (X : Mat R) (i j : Nat) :
    (pearson sqrt X i j).isSome = true ↔ sqrt (varTerm X i * varTerm X j) ≠ 0 := by
  unfold pearson
  simp only []
  split_ifs with h
  · simp [h]
  · simp [h]

theorem foldl_addD_map_some (l : List R) (a : R) :
    (l.map some).foldl addD (some a) = some (a + l.sum) := by
  induction l generalizing a with
  | nil => simp
  | cons x xs ih =>
    rw [List.map_cons, List.foldl_cons]
    show List.foldl addD (some (a + x)) (List.map some xs) = _
    rw [ih, List.sum_cons, add_assoc]

theorem entries_eq_map_some {α : Type} (m : Mat (Option α)) (f : Nat → Nat → α)
    (h : ∀ i < m.n_rows, ∀ j < m.n_cols, m.get i j = some (f i j)) :
    entries m = (entries (⟨m.n_rows, m.n_cols, f⟩ : Mat α)).map some := by
  unfold entries
  simp only []
  rw [List.map_flatMap, List.flatMap_def, List.flatMap_def]
  congr 1
  apply List.map_congr_left
  intro j hj
  rw [List.map_map]
  apply List.map_congr_left
  intro i hi
  exact h i (List.mem_range.mp hi) j (List.mem_range.mp hj)

theorem accu_eq_some (m : Mat (Option R)) (f : Nat → Nat → R)
    (h : ∀ i < m.n_rows, ∀ j < m.n_cols, m.get i j = some (f i j)) :
    accu m = some (entries (⟨m.n_rows, m.n_cols, f⟩ : Mat R)).sum := by
  unfold accu
  rw [entries_eq_map_some m f h, foldl_addD_map_some, zero_add]

theorem mem_entries {α : Type} (m : Mat α) (x : α) :
    x ∈ entries m ↔ ∃ j < m.n_cols, ∃ i < m.n_rows, m.get i j = x := by
  unfold entries
  simp only [List.mem_flatMap, List.mem_range, List.mem_map]

/-- When every correlation of the data is the value `ρ i j`, the score is the
square root of the sum of the squared deviations from the target. -/
theorem score_eq_some (sqrt : R → R) (target X : Mat R) (ρ : Nat → Nat → R)
    (h : ∀ i < X.n_cols, ∀ j < X.n_cols, pearson sqrt X i j = some (ρ i j)) :
    score sqrt target X = some (sqrt (entries (⟨X.n_cols, X.n_cols,
      fun i j => (ρ i j - target.get i j) * (ρ i j - target.get i j)⟩ : Mat R)).sum) := by
  unfold score frobeniusNorm computeCorrelation
  simp only []
  rw [accu_eq_some _ (fun i j => (ρ i j - target.get i j) * (ρ i j - target.get i j))]
  · rfl
  · intro i hi j hj
    simp only [] at hi hj ⊢
    rw [h i hi j hj]
    rfl

theorem pearson_eq_some_of_ne (sqrt : R → R) (X : Mat R) (i j : Nat)
    (h : sqrt (varTerm X i * varTerm X j) ≠ 0) : ∃ v, pearson sqrt X i j = some v := by
  have := (pearson_isSome_iff sqrt X i j).mpr h
  exact Option.isSome_iff_exists.mp this

/-- With defined correlations the score is the square root of a number that is
not negative. -/
theorem score_eq_sqrt_of_corDefined (sqrt : R → R) (target X : Mat R)
    (h : CorDefined sqrt X) : ∃ v, 0 ≤ v ∧ score sqrt target X = some (sqrt v) := by
  have hex : ∀ i j, ∃ v, i < X.n_cols → j < X.n_cols → pearson sqrt X i j = some v := by
    intro i j
    by_cases hij : i < X.n_cols ∧ j < X.n_cols
    · obtain ⟨v, hv⟩ := pearson_eq_some_of_ne sqrt X i j (h i hij.1 j hij.2)
      exact ⟨v, fun _ _ => hv⟩
    · exact ⟨0, fun hi hj => absurd ⟨hi, hj⟩ hij⟩
  choose ρ hρ using hex
  refine ⟨_, ?_, score_eq_some sqrt target X ρ (fun i hi j hj => hρ i j hi hj)⟩
  apply List.sum_nonneg
  intro x hx
  rw [mem_entries] at hx
  obtain ⟨j, _, i, _, rfl⟩ := hx
  exact mul_self_nonneg _

end ScoreProofs

/-! ## The run as a sequence of trials -/

section TraceProofs

variable {R : Type} [LinearOrderedField R]

theorem foldl_flatMap_eq {σ β γ : Type} (f : σ → γ → σ) (g : β → List γ) (l : List β)
    (init : σ) :
    (l.flatMap g).foldl f init = l.foldl (fun s x => (g x).foldl f s) init := by
  induction l generalizing init with
  | nil => rfl
  | cons x xs ih => rw [List.flatMap_cons, List.foldl_append, ih, List.foldl_cons]

theorem mem_swapTrials (nRows nCols : Nat) (t : Nat × Nat × Nat) (h : t ∈ swapTrials nRows nCols) :
    t.1 < nRows ∧ t.2.1 < nRows := by
  unfold swapTrials at h
  rw [List.mem_flatMap] at h
  obtain ⟨r, hr, ht⟩ := h
  rw [List.mem_map] at ht
  obtain ⟨col, _, rfl⟩ := ht
  rw [mem_swapCandidates] at hr
  exact ⟨hr.1, hr.2.1⟩

theorem getLast?_scanl {σ β : Type} (f : σ → β → σ) (l : List β) (init : σ) :
    (l.scanl f init).getLast? = some (l.foldl f init) := by
  induction l generalizing init with
  | nil => rfl
  | cons x xs ih =>
    rw [List.scanl_cons, List.foldl_cons, List.getLast?_append, ih]
    rfl

theorem head?_scanl {σ β : Type} (f : σ → β → σ) (l : List β) (init : σ) :
    (l.scanl f init).head? = some init := by
  cases l <;> rfl

/-- An invariant of the states kept by every trial gives a chain over the
states of the run. -/
theorem chain_scanl {σ β : Type} (P : σ → Prop) (Q : σ → σ → Prop) (f : σ → β → σ)
    (l : List β) (hstep : ∀ s x, x ∈ l → P s → P (f s x) ∧ Q s (f s x)) (init : σ)
    (h0 : P init) : List.Chain' Q (l.scanl f init) := by
  induction l generalizing init with
  | nil => simp [List.scanl]
  | cons x xs ih =>
    rw [List.scanl_cons]
    have hx := hstep init x (List.mem_cons_self _ _) h0
    have ih' := ih (fun s y hy hs => hstep s y (List.mem_cons_of_mem _ hy) hs) (f init x) hx.1
    show List.Chain' Q (init :: List.scanl f (f init x) xs)
    rw [List.chain'_cons']
    refine ⟨?_, ih'⟩
    intro y hy
    rw [head?_scanl] at hy
    cases hy
    exact hx.2

end TraceProofs

/-! ## The square root on the rationals -/

theorem natSqrtAux_spec (n : Nat) : ∀ k r, r * r ≤ n → n < (r + 2 ^ k) * (r + 2 ^ k) →
    natSqrtAux n k r * natSqrtAux n k r ≤ n ∧
      n < (natSqrtAux n k r + 1) * (natSqrtAux n k r + 1) := by
  intro k
  induction k with
  | zero =>
    intro r h1 h2
    simpa [natSqrtAux] using ⟨h1, h2⟩
  | succ k ih =>
    intro r h1 h2
    unfold natSqrtAux
    split_ifs with h
    · apply ih _ h
      have e : r + 2 ^ k + 2 ^ k = r + 2 ^ (k + 1) := by rw [pow_succ]; ring
      rw [e]
      exact h2
    · exact ih r h1 (not_le.mp h)

theorem sqrtBound_spec (n : Nat) : ∀ f k, n ≤ f + k →
    n < 2 ^ sqrtBound n f k * 2 ^ sqrtBound n f k := by
  intro f
  induction f with
  | zero =>
    intro k hk
    unfold sqrtBound
    have h1 : n < 2 ^ n := Nat.lt_two_pow n
    have h2 : 2 ^ n ≤ 2 ^ k := Nat.pow_le_pow_right (by norm_num) (by omega)
    have h3 : 2 ^ k ≤ 2 ^ k * 2 ^ k := Nat.le_mul_of_pos_right _ (Nat.two_pow_pos k)
    omega
  | succ f ih =>
    intro k hk
    unfold sqrtBound
    split_ifs with h
    · exact h
    · exact ih (k + 1) (by omega)

theorem natSqrt_eq (n : Nat) : natSqrt n = Nat.sqrt n := by
  rw [Nat.eq_sqrt]
  unfold natSqrt
  apply natSqrtAux_spec
  · exact Nat.zero_le _
  · rw [Nat.zero_add]
    exact sqrtBound_spec n n 0 (by omega)

theorem ceilDiv_le_iff (a d n : Nat) (hd : 0 < d) : (a + d - 1) / d ≤ n ↔ a ≤ n * d := by
  rw [← Nat.lt_succ_iff, Nat.div_lt_iff_lt_mul hd, Nat.succ_mul]
  omega

theorem sqrtQ_le_iff (q : ℚ) (hq : 0 < q) (s : Nat) :
    sqrtQ q ≤ (s : ℚ) / 1000000 ↔ q ≤ ((s : ℚ) / 1000000) ^ 2 := by
  unfold sqrtQ
  rw [if_neg (not_le.mpr hq), natSqrt_eq]
  rw [div_le_div_iff_of_pos_right (by norm_num : (0:ℚ) < 1000000), Nat.cast_le, Nat.succ_le_iff, Nat.sqrt_lt]
  have hnum : 0 < q.num := Rat.num_pos.mpr hq
  have hden : 0 < q.den := q.den_pos
  have hc : 0 < (q.num.toNat * 1000000000000 + q.den - 1) / q.den := by
    apply Nat.div_pos _ hden
    have : 0 < q.num.toNat := by omega
    omega
  have h1 : (q.num.toNat * 1000000000000 + q.den - 1) / q.den - 1 < s * s ↔
      (q.num.toNat * 1000000000000 + q.den - 1) / q.den ≤ s * s := by omega
  rw [h1, ceilDiv_le_iff _ _ _ hden]
  have hq' : q = (q.num.toNat : ℚ) / (q.den : ℚ) := by
    have : ((q.num.toNat : ℤ) : ℚ) = (q.num : ℚ) := by
      rw [Int.toNat_of_nonneg hnum.le]
    rw [← Int.cast_natCast q.num.toNat, this]
    exact (Rat.num_div_den q).symm
  have hdq : (0:ℚ) < q.den := by exact_mod_cast hden
  constructor
  · intro h
    rw [hq', div_le_iff₀ hdq]
    have : ((q.num.toNat * 1000000000000 : Nat) : ℚ) ≤ ((s * s * q.den : Nat) : ℚ) := by
      exact_mod_cast h
    push_cast at this
    nlinarith
  · intro h
    rw [hq', div_le_iff₀ hdq] at h
    have : ((q.num.toNat * 1000000000000 : Nat) : ℚ) ≤ ((s * s * q.den : Nat) : ℚ) := by
      push_cast
      nlinarith
    exact_mod_cast this

theorem sqrtQ_pos (x : ℚ) (hx : 0 < x) : 0 < sqrtQ x := by
  unfold sqrtQ
  rw [if_neg (not_le.mpr hx)]
  exact div_pos (Nat.cast_pos.mpr (Nat.succ_pos _)) (by norm_num)

/-- No smaller multiple of `10⁻⁶` has a square of at least `q`. -/
theorem sqrtQ_least (q : ℚ) (hq : 0 < q) (s : Nat) (h : q ≤ ((s : ℚ) / 1000000) ^ 2) :
    sqrtQ q ≤ (s : ℚ) / 1000000 :=
  (sqrtQ_le_iff q hq s).mpr h

/-! ## The validator: claims -/

section ValidatorClaims

variable {R : Type} [LinearOrderedField R]

/-- C4: `checkIntegrity` returns true exactly when the target is square, its
dimension is the number of columns of the data, every diagonal entry is 1,
every entry lies in [-1, 1], the target is symmetric, and it passes the
positive-definiteness test `is_sympd`. -/
theorem checkIntegrity_true_iff (is_sympd : Mat R → Bool) (data target : Mat R) :
    checkIntegrity is_sympd data target = true ↔
      target.n_rows = target.n_cols ∧ data.n_cols = target.n_rows ∧
      (∀ i < target.n_rows, target.get i i = 1) ∧
      (∀ i < target.n_rows, ∀ j < target.n_rows,
        -1 ≤ target.get i j ∧ target.get i j ≤ 1) ∧
      (∀ i < target.n_rows, ∀ j < target.n_rows, target.get i j = target.get j i) ∧
      is_sympd target = true := by
  unfold checkIntegrity checkIntegrityReport
  dsimp only
  by_cases hsq : target.n_rows = target.n_cols
  swap
  · rw [if_pos hsq]
    simp [hsq]
  rw [if_neg (not_not_intro hsq)]
  by_cases hdim : data.n_cols = target.n_rows
  swap
  · rw [if_pos hdim]
    simp [hdim]
  rw [if_neg (not_not_intro hdim)]
  simp only [hsq, hdim, true_and]
  rw [← hsq]
  cases hrows : checkRows target target.n_rows (List.range target.n_rows) with
  | some e =>
    simp only [Option.isNone_some, Bool.false_eq_true, false_iff]
    rintro ⟨hd, hr, hs, _⟩
    have : checkRows target target.n_rows (List.range target.n_rows) = none := by
      rw [checkRows_eq_none_iff]
      intro i hi
      rw [List.mem_range] at hi
      refine ⟨hd i hi, ?_⟩
      rw [checkEntries_eq_none_iff]
      intro j hj
      rw [List.mem_range] at hj
      exact ⟨hr i hi j hj, fun _ => hs i hi j hj⟩
    rw [this] at hrows
    cases hrows
  | none =>
    rw [checkRows_eq_none_iff] at hrows
    have hd : ∀ i < target.n_rows, target.get i i = 1 :=
      fun i hi => (hrows i (List.mem_range.mpr hi)).1
    have he : ∀ i < target.n_rows, ∀ j < target.n_rows,
        (-1 ≤ target.get i j ∧ target.get i j ≤ 1) ∧
          (i ≠ j → target.get i j = target.get j i) := by
      intro i hi j hj
      exact (checkEntries_eq_none_iff target i _).mp (hrows i (List.mem_range.mpr hi)).2 j
        (List.mem_range.mpr hj)
    have hs : ∀ i < target.n_rows, ∀ j < target.n_rows, target.get i j = target.get j i := by
      intro i hi j hj
      by_cases hij : i = j
      · rw [hij]
      · exact (he i hi j hj).2 hij
    by_cases hpd : is_sympd target = true
    · simp only [hpd, not_true_eq_false, if_false, Option.isNone_none, true_iff, and_true]
      exact ⟨hd, fun i hi j hj => (he i hi j hj).1, hs⟩
    · simp [hpd]

/-- C5 (counterexample): a square, correctly sized target with a diagonal entry
different from 1 (row 1) and an entry outside [-1, 1] (row 0) is reported as a
range failure, not as a diagonal failure. -/
theorem checkIntegrity_range_reported_before_diagonal :
    rangeBeforeDiagTarget.n_rows = rangeBeforeDiagTarget.n_cols ∧
    twoColData.n_cols = rangeBeforeDiagTarget.n_rows ∧
    rangeBeforeDiagTarget.get 1 1 ≠ 1 ∧
    rangeBeforeDiagTarget.get 0 1 > 1 ∧
    checkIntegrityReport is_sympd_exact twoColData rangeBeforeDiagTarget
      = some IntegrityError.outOfRange := by
  decide!

/-- C5 (amended): the reason reported by `checkIntegrity` is that of the first
violated check in the order in which the code evaluates them: square, dimension,
then row by row the diagonal entry of the row followed by, entry by entry, the
range and the symmetry of the entries of that row, and last the
positive-definiteness test; no reason is reported when no check is violated. -/
theorem checkIntegrityReport_eq_first_violation (is_sympd : Mat R → Bool)
    (data target : Mat R) :
    checkIntegrityReport is_sympd data target =
      ((allChecks is_sympd data target).find? (fun p => p.1)).map (fun p => p.2) := by
  unfold checkIntegrityReport allChecks scanChecks
  dsimp only
  by_cases hsq : target.n_rows = target.n_cols
  swap
  · rw [if_pos hsq]
    simp [hsq]
  rw [if_neg (not_not_intro hsq)]
  by_cases hdim : data.n_cols = target.n_rows
  swap
  · rw [if_pos hdim]
    have e1 : decide (target.n_rows ≠ target.n_cols) = false := by simp [hsq]
    have e2 : decide (data.n_cols ≠ target.n_rows) = true := by simp [hdim]
    rw [List.find?_cons, e1]
    simp only []
    rw [List.find?_cons, e2]
    rfl
  rw [if_neg (not_not_intro hdim)]
  have e1 : decide (target.n_rows ≠ target.n_cols) = false := by simp [hsq]
  have e2 : decide (data.n_cols ≠ target.n_rows) = false := by simp [hdim]
  rw [List.find?_cons, e1]
  simp only []
  rw [List.find?_cons, e2]
  simp only []
  rw [find_append_map, ← checkRows_eq_find]
  cases checkRows target target.n_rows (List.range target.n_rows) with
  | some e => rfl
  | none =>
    by_cases hpd : is_sympd target = true
    · simp [hpd]
    · simp [hpd]

/-- C6 (counterexample): for data with two columns, `checkIntegrity` returns
false for the 2×2 target whose four entries are 1. -/
theorem checkIntegrity_ones_target_false :
    twoColData.n_cols = 2 ∧
    checkIntegrity is_sympd_exact twoColData (onesTarget ℚ) = false := by
  decide!

/-- C6 (amended): for data with two columns, the 2×2 target whose four entries
are 1 passes the square, dimension, diagonal, range and symmetry checks and is
rejected by the positive-definiteness test. -/
theorem checkIntegrityReport_ones_target (data : Mat R) (h : data.n_cols = 2) :
    checkIntegrityReport is_sympd_exact data (onesTarget R)
      = some IntegrityError.notPosDef := by
  have hr : List.range 2 = [0, 1] := rfl
  norm_num [checkIntegrityReport, onesTarget, Mat.ofCols, h, hr, checkRows, checkEntries,
    is_sympd_exact, pivotsPositive]

theorem checkIntegrityReport_ones_target_witness :
    twoColData.n_cols = 2 ∧
    checkIntegrityReport is_sympd_exact twoColData (onesTarget ℚ)
      = some IntegrityError.notPosDef :=
  ⟨rfl, checkIntegrityReport_ones_target twoColData rfl⟩

end ValidatorClaims

/-! ## The optimisers: value preservation -/

section PermClaims

variable {R : Type} [LinearOrderedField R]

/-- C1: for every data matrix and every target accepted by `checkIntegrity`,
`lcor_C` returns a matrix of the same shape in which every column is a
permutation of the same column of the input. -/
theorem lcor_C_preserves_column_values (sqrt : R → R) (is_sympd : Mat R → Bool)
    (data target : Mat R) (h : checkIntegrity is_sympd data target = true) :
    ∃ out, lcor_C sqrt is_sympd data target = Except.ok out ∧
      out.n_rows = data.n_rows ∧ out.n_cols = data.n_cols ∧
      ∀ c, (out.col c).Perm (data.col c) :=
  ⟨_, lcor_C_eq_ok sqrt is_sympd data target h, finalState_columnsPerm sqrt data target⟩

theorem lcor_C_preserves_column_values_witness :
    checkIntegrity is_sympd_exact twoColData halfTarget = true ∧
    ∃ out, lcor_C sqrtQ is_sympd_exact twoColData halfTarget = Except.ok out ∧
      out.n_rows = twoColData.n_rows ∧ out.n_cols = twoColData.n_cols ∧
      ∀ c, (out.col c).Perm (twoColData.col c) :=
  ⟨by decide!,
    lcor_C_preserves_column_values sqrtQ is_sympd_exact twoColData halfTarget (by decide!)⟩

/-- C2 (counterexample): on the accepted input with columns `(1, 2)` and
`(2, 1)` and target correlation one half, `lcor_C` returns a matrix whose
column 0 is `(2, 1)`: the first trial exchanges rows 0 and 1 of column 0 and is
kept. -/
theorem lcor_C_changes_column_zero :
    checkIntegrity is_sympd_exact twoColData halfTarget = true ∧
    ∃ out, lcor_C sqrtQ is_sympd_exact twoColData halfTarget = Except.ok out ∧
      out.col 0 = [2, 1] ∧ twoColData.col 0 = [1, 2] :=
  ⟨by decide!, _, lcor_C_eq_ok sqrtQ is_sympd_exact twoColData halfTarget (by decide!),
    by decide!, by decide!⟩

/-- C2 (amended): for every accepted input, column 0 of the matrix returned by
`lcor_C` is a permutation of column 0 of the input (the sweep runs over every
column, column 0 included); a trial in a column other than column 0 leaves
column 0 identical row by row. -/
theorem lcor_C_column_zero_perm (sqrt : R → R) (is_sympd : Mat R → Bool)
    (data target : Mat R) (h : checkIntegrity is_sympd data target = true) :
    (∃ out, lcor_C sqrt is_sympd data target = Except.ok out ∧
      (out.col 0).Perm (data.col 0)) ∧
    ∀ (st : SwapState R) (i j col : Nat), col ≠ 0 →
      (swapStep sqrt target i j st col).data_mat.col 0 = st.data_mat.col 0 := by
  refine ⟨⟨_, lcor_C_eq_ok sqrt is_sympd data target h,
    (finalState_columnsPerm sqrt data target).2.2 0⟩, ?_⟩
  intro st i j col hcol
  rw [swapStep_eq]
  split_ifs
  · rfl
  · exact Mat.swap_col_of_ne st.data_mat i j col 0 (Ne.symm hcol)

theorem lcor_C_column_zero_perm_witness :
    checkIntegrity is_sympd_exact twoColData halfTarget = true ∧
    ((∃ out, lcor_C sqrtQ is_sympd_exact twoColData halfTarget = Except.ok out ∧
      (out.col 0).Perm (twoColData.col 0)) ∧
    ∀ (st : SwapState ℚ) (i j col : Nat), col ≠ 0 →
      (swapStep sqrtQ halfTarget i j st col).data_mat.col 0 = st.data_mat.col 0) :=
  ⟨by decide!, lcor_C_column_zero_perm sqrtQ is_sympd_exact twoColData halfTarget (by decide!)⟩

/-- C10: for every pass count, every choice of the shuffled index vectors drawn
during the run and every input accepted by the `checkIntegrity` of
lcor_C_randomised.cpp,
`lcor_C_randomised` returns a matrix of the same shape in which every column is
a permutation of the same column of the input. -/
theorem lcor_C_randomised_preserves_column_values (sqrt : R → R) (is_sympd : Mat R → Bool)
    (shuffles : Nat → Nat → List Nat × List Nat) (data target : Mat R) (passes : Nat)
    (hs : ValidShuffles data.n_rows shuffles)
    (h : Randomised.checkIntegrity is_sympd data target = true) :
    ∃ out, lcor_C_randomised sqrt is_sympd shuffles data target passes = Except.ok out ∧
      out.n_rows = data.n_rows ∧ out.n_cols = data.n_cols ∧
      ∀ c, (out.col c).Perm (data.col c) :=
  ⟨_, lcor_C_randomised_eq_ok sqrt is_sympd shuffles data target passes h,
    randLoop_columnsPerm sqrt target data data.n_cols passes shuffles hs _
      (ColumnsPerm.refl data)⟩

theorem lcor_C_randomised_preserves_column_values_witness :
    ValidShuffles twoColData.n_rows fixedShuffles ∧
    Randomised.checkIntegrity is_sympd_exact twoColData halfTarget = true ∧
    ∃ out, lcor_C_randomised sqrtQ is_sympd_exact fixedShuffles twoColData halfTarget 10
        = Except.ok out ∧
      out.n_rows = twoColData.n_rows ∧ out.n_cols = twoColData.n_cols ∧
      ∀ c, (out.col c).Perm (twoColData.col c) :=
  ⟨fun _ _ => ⟨(by decide : [1, 0].Perm (List.range 2)),
      (by decide : [0, 1].Perm (List.range 2))⟩, by decide!,
    lcor_C_randomised_preserves_column_values sqrtQ is_sympd_exact fixedShuffles twoColData
      halfTarget 10
      (fun _ _ => ⟨(by decide : [1, 0].Perm (List.range 2)),
        (by decide : [0, 1].Perm (List.range 2))⟩) (by decide!)⟩

end PermClaims

/-! ## The deterministic optimiser: scores -/

section ScoreClaims

variable {R : Type} [LinearOrderedField R]

/-- C7 (the code on the failing input): for the data with the single column
`(1, 2)` and the target `[[1]]`, `lcor_C` raises no error and returns the
column unchanged. -/
theorem lcor_C_single_column_returns :
    singleColData.n_cols = 1 ∧
    checkIntegrity is_sympd_exact singleColData unitTarget = true ∧
    ∃ out, lcor_C sqrtQ is_sympd_exact singleColData unitTarget = Except.ok out ∧
      out.col 0 = [1, 2] :=
  ⟨rfl, by decide!, _,
    lcor_C_eq_ok sqrtQ is_sympd_exact singleColData unitTarget (by decide!), by decide!⟩

/-- C9: on the data with columns `1 .. 6` and `6 .. 1` and the identity target,
`lcor_C` returns a matrix whose two columns have a correlation of absolute value
below 1 (the input has correlation -1) and whose second column is a
permutation of `1 .. 6`. -/
theorem lcor_C_end_to_end_scenario :
    (computeCorrelation sqrtQ scenarioData).get 0 1 = some (-1) ∧
    ∃ out, lcor_C sqrtQ is_sympd_exact scenarioData identityTarget = Except.ok out ∧
      (∃ r, (computeCorrelation sqrtQ out).get 0 1 = some r ∧ |r| < 1) ∧
      (out.col 1).Perm [1, 2, 3, 4, 5, 6] :=
  ⟨by decide!, _,
    lcor_C_eq_ok sqrtQ is_sympd_exact scenarioData identityTarget (by decide!),
    ⟨1 / 35, by decide!, by decide!⟩, by decide!⟩

end ScoreClaims

/-! ## The randomised optimiser: scores -/

section RandScoreProofs

variable {R : Type} [LinearOrderedField R]

theorem ScoreStep.trans {a b c : Option R} (h₁ : ScoreStep a b) (h₂ : ScoreStep b c) :
    ScoreStep a c := by
  obtain ⟨x, y, hx, hy, hxy⟩ := h₁
  obtain ⟨y', z, hy', hz, hyz⟩ := h₂
  have e : y = y' := Option.some.inj (hy.symm.trans hy')
  exact ⟨x, z, hx, hz, le_trans hyz (e ▸ hxy)⟩

/-- Along a run whose steps keep `P` and are related by a transitive relation
that is reflexive on `P`, every state is related to the last one. -/
theorem scanl_rel_last {σ β : Type} (P : σ → Prop) (Q : σ → σ → Prop) (f : σ → β → σ)
    (l : List β) (hstep : ∀ s x, x ∈ l → P s → P (f s x) ∧ Q s (f s x))
    (hrefl : ∀ s, P s → Q s s) (htrans : ∀ a b c, Q a b → Q b c → Q a c)
    (init : σ) (h0 : P init) : ∀ s ∈ l.scanl f init, Q s (l.foldl f init) := by
  induction l generalizing init with
  | nil =>
    intro s hs
    simp only [List.scanl, List.mem_singleton] at hs
    rw [hs]
    exact hrefl init h0
  | cons x xs ih =>
    intro s hs
    have hx := hstep init x (List.mem_cons_self _ _) h0
    have ih' := ih (fun s y hy hs => hstep s y (List.mem_cons_of_mem _ hy) hs) (f init x) hx.1
    rw [List.scanl_cons] at hs
    rw [List.foldl_cons]
    rcases List.mem_append.mp hs with h | h
    · simp only [List.mem_singleton] at h
      rw [h]
      have hhead : f init x ∈ List.scanl f (f init x) xs := by
        cases xs <;> simp [List.scanl]
      exact htrans _ _ _ hx.2 (ih' _ hhead)
    · exact ih' s h

theorem mem_scanl_invariant {σ β : Type} (P : σ → Prop) (f : σ → β → σ)
    (l : List β) (hstep : ∀ s x, x ∈ l → P s → P (f s x)) (init : σ) (h0 : P init) :
    ∀ s ∈ l.scanl f init, P s := by
  induction l generalizing init with
  | nil =>
    intro s hs
    simp only [List.scanl, List.mem_singleton] at hs
    rw [hs]
    exact h0
  | cons x xs ih =>
    intro s hs
    rw [List.scanl_cons] at hs
    rcases List.mem_append.mp hs with h | h
    · simp only [List.mem_singleton] at h
      rw [h]
      exact h0
    · exact ih (fun s y hy hs => hstep s y (List.mem_cons_of_mem _ hy) hs) (f init x)
        (hstep init x (List.mem_cons_self _ _) h0) s h

end RandScoreProofs

/-! ## The deterministic optimiser: single trials -/

section TrialProofs

variable {R : Type} [LinearOrderedField R]

/-- The acceptance rule when both scores are defined: the exchange is kept
exactly when the new score is strictly lower. -/
theorem swapStep_of_defined (sqrt : R → R) (target : Mat R) (i j col : Nat)
    (st : SwapState R) (cur new : R) (hcur : st.initialFrobNorm = some cur)
    (hnew : score sqrt target (st.data_mat.swap i j col) = some new) :
    swapStep sqrt target i j st col =
      if new < cur then ⟨st.data_mat.swap i j col, some new⟩ else st := by
  rw [swapStep_eq, hcur, hnew]
  simp only [geD, decide_eq_true_eq]
  by_cases h : new < cur
  · rw [if_neg (not_le.mpr h), if_pos h]
  · rw [if_pos (not_lt.mp h), if_neg h]

/-- The acceptance rule when a score is undefined: the exchange is kept. -/
theorem swapStep_of_undefined (sqrt : R → R) (target : Mat R) (i j col : Nat)
    (st : SwapState R)
    (h : st.initialFrobNorm = none ∨ score sqrt target (st.data_mat.swap i j col) = none) :
    swapStep sqrt target i j st col =
      ⟨st.data_mat.swap i j col, score sqrt target (st.data_mat.swap i j col)⟩ := by
  rw [swapStep_eq]
  have hge : ¬ geD (score sqrt target (st.data_mat.swap i j col)) st.initialFrobNorm = true := by
    rcases h with h | h
    · rw [h]
      cases score sqrt target (st.data_mat.swap i j col) <;> simp [geD]
    · rw [h]
      simp [geD]
  rw [if_neg hge]

end TrialProofs

/-! ## The deterministic optimiser: claims on single trials and on the score -/

section TrialClaims

variable {R : Type} [LinearOrderedField R]

/-- C12 (counterexample): for the accepted input whose column 0 holds the value
5 in every row, no error is signalled: the correlation of columns 0 and 1 and
the score are undefined and `lcor_C` returns a matrix. -/
theorem lcor_C_zero_variance_returns :
    (∀ i < constColData.n_rows, constColData.get i 0 = 5) ∧
    checkIntegrity is_sympd_exact constColData identityTarget = true ∧
    (computeCorrelation sqrtQ constColData).get 0 1 = none ∧
    score sqrtQ identityTarget constColData = none ∧
    ∃ out, lcor_C sqrtQ is_sympd_exact constColData identityTarget = Except.ok out :=
  ⟨by decide!, by decide!, by decide!, by decide!, _,
    lcor_C_eq_ok sqrtQ is_sympd_exact constColData identityTarget (by decide!)⟩

/-- C14 (the code on the failing input): with the constant column 0 the current
score and the score after exchanging rows 0 and 1 of column 1 are both
undefined, so the new score is not strictly lower; the trial nevertheless keeps
the exchange, and `lcor_C` returns column 1 as `(3, 1, 2)`. -/
theorem lcor_C_keeps_swap_on_undefined_score :
    (initState sqrtQ constColData identityTarget).initialFrobNorm = none ∧
    score sqrtQ identityTarget
      ((initState sqrtQ constColData identityTarget).data_mat.swap 0 1 1) = none ∧
    constColData.col 1 = [1, 2, 3] ∧
    (swapStep sqrtQ identityTarget 0 1
      (initState sqrtQ constColData identityTarget) 1).data_mat.col 1 = [2, 1, 3] ∧
    ∃ out, lcor_C sqrtQ is_sympd_exact constColData identityTarget = Except.ok out ∧
      out.col 1 = [3, 1, 2] :=
  ⟨by decide!, by decide!, by decide!, by decide!, _,
    lcor_C_eq_ok sqrtQ is_sympd_exact constColData identityTarget (by decide!), by decide!⟩

end TrialClaims

/-! ## The candidate list -/

section CandidateProofs

theorem swapCandidates_nodup (n : Nat) : (swapCandidates n).Nodup := by
  unfold swapCandidates
  rw [List.nodup_flatMap]
  constructor
  · intro i _
    apply List.Nodup.filterMap _ (List.nodup_range n)
    intro a a' b hb hb'
    simp only [Option.mem_def] at hb hb'
    split_ifs at hb hb' with h1 h2
    simp only [Option.some.injEq] at hb hb'
    rw [← hb] at hb'
    exact (Prod.mk.inj hb').2.symm
  · refine (List.nodup_range n).imp ?_
    intro a b hab
    rw [Function.onFun, List.disjoint_left]
    intro p hpa hpb
    rw [List.mem_filterMap] at hpa hpb
    obtain ⟨x, _, hx⟩ := hpa
    obtain ⟨y, _, hy⟩ := hpb
    split_ifs at hx hy with h1 h2
    · simp only [Option.some.injEq] at hx hy
      rw [← hx] at hy
      exact hab (Prod.mk.inj hy).1.symm

theorem length_filterMap_ne_add_count (i : Nat) (l : List Nat) :
    (l.filterMap fun j => if i ≠ j then some (i, j) else none).length + l.count i
      = l.length := by
  induction l with
  | nil => rfl
  | cons x xs ih =>
    by_cases h : i = x
    · subst h
      rw [List.filterMap_cons_none (by simp), List.count_cons_self, List.length_cons]
      omega
    · rw [List.filterMap_cons_some (by rw [if_pos h]), List.count_cons_of_ne h,
        List.length_cons, List.length_cons]
      omega

theorem swapCandidates_length (n : Nat) : (swapCandidates n).length = n * (n - 1) := by
  unfold swapCandidates
  rw [List.length_flatMap]
  have h : (List.range n).map
      (List.length ∘ fun i => (List.range n).filterMap fun j => if i ≠ j then some (i, j) else none)
      = (List.range n).map (fun _ => n - 1) := by
    apply List.map_congr_left
    intro i hi
    have h1 := length_filterMap_ne_add_count i (List.range n)
    rw [List.count_eq_one_of_mem (List.nodup_range n) hi, List.length_range] at h1
    show ((List.range n).filterMap fun j => if i ≠ j then some (i, j) else none).length = n - 1
    omega
  rw [h, List.map_const', List.sum_replicate, List.length_range, smul_eq_mul]

end CandidateProofs

/-! ## The candidate list: claim -/

/-- C15: for every row count `n`, the list `swapCandidates` has no repeated
entry, holds the pair `(i, j)` exactly when `i, j < n` and `i ≠ j` (so each
such pair occurs exactly once and no pair with `i = j` occurs), and has length
`n * (n - 1)`. -/
theorem swapCandidates_enumerates_pairs (n : Nat) :
    (swapCandidates n).Nodup ∧
    (∀ i j, (i, j) ∈ swapCandidates n ↔ i < n ∧ j < n ∧ i ≠ j) ∧
    (∀ i, (i, i) ∉ swapCandidates n) ∧
    (swapCandidates n).length = n * (n - 1) :=
  ⟨swapCandidates_nodup n, fun i j => mem_swapCandidates n (i, j),
    fun i hm => ((mem_swapCandidates n (i, i)).mp hm).2.2 rfl, swapCandidates_length n⟩

/-! ## The two validators -/

section ValidatorEquivalence

variable {R : Type} [LinearOrderedField R]

theorem randomised_checkEntries_eq (target : Mat R) (i : Nat) (js : List Nat) :
    Randomised.checkEntries target i js = (checkEntries target i js).isNone := by
  induction js with
  | nil => rfl
  | cons j js ih =>
    unfold Randomised.checkEntries LikertMakeR.checkEntries
    by_cases h1 : target.get i j < -1 ∨ target.get i j > 1
    · have h1' : target.get i j < -1 ∨ target.get i j > 1 ∨ target.get i j ≠ target.get j i := by
        rcases h1 with h | h
        · exact Or.inl h
        · exact Or.inr (Or.inl h)
      rw [if_pos h1', if_pos h1]
      rfl
    · rw [if_neg h1]
      by_cases h2 : target.get i j ≠ target.get j i
      · have hij : i ≠ j := by
          intro e
          subst e
          exact h2 rfl
        rw [if_pos (Or.inr (Or.inr h2)), if_pos ⟨hij, h2⟩]
        rfl
      · have h1' : ¬ (target.get i j < -1 ∨ target.get i j > 1 ∨
            target.get i j ≠ target.get j i) := by
          rintro (h | h | h)
          · exact h1 (Or.inl h)
          · exact h1 (Or.inr h)
          · exact h2 h
        rw [if_neg h1', if_neg (fun h => h2 h.2), ih]

theorem randomised_checkRows_eq (target : Mat R) (n : Nat) (rows : List Nat) :
    Randomised.checkRows target n rows = (checkRows target n rows).isNone := by
  induction rows with
  | nil => rfl
  | cons i rest ih =>
    unfold Randomised.checkRows LikertMakeR.checkRows
    by_cases h1 : target.get i i ≠ 1
    · rw [if_pos h1, if_pos h1]
      rfl
    · rw [if_neg h1, if_neg h1, randomised_checkEntries_eq]
      cases hce : checkEntries target i (List.range n) with
      | none =>
        rw [if_neg (by simp), ih]
      | some e =>
        rw [if_pos (by simp)]
        rfl

end ValidatorEquivalence

/-! ## The two validators: claim -/

/-- C20: for every data matrix and every target, the `checkIntegrity` of
lcor_C.cpp and the `checkIntegrity` of lcor_C_randomised.cpp return the same
boolean. -/
theorem checkIntegrity_eq_randomised {R : Type} [LinearOrderedField R]
    (is_sympd : Mat R → Bool) (data target : Mat R) :
    checkIntegrity is_sympd data target = Randomised.checkIntegrity is_sympd data target := by
  unfold checkIntegrity checkIntegrityReport Randomised.checkIntegrity
  dsimp only
  by_cases hsq : target.n_rows = target.n_cols
  swap
  · rw [if_pos hsq, if_pos (Or.inl hsq)]
    rfl
  rw [if_neg (not_not_intro hsq)]
  by_cases hdim : data.n_cols = target.n_rows
  swap
  · rw [if_pos hdim, if_pos (Or.inr hdim)]
    rfl
  have hor : ¬ (target.n_rows ≠ target.n_cols ∨ data.n_cols ≠ target.n_rows) := by
    rintro (h | h)
    · exact h hsq
    · exact h hdim
  rw [if_neg (not_not_intro hdim), if_neg hor, randomised_checkRows_eq]
  cases checkRows target target.n_rows (List.range target.n_rows) with
  | some e => simp
  | none => cases hs : is_sympd target <;> simp [hs]


/-! ## The distance metric: proofs -/

section MetricProofs

variable {R : Type} [LinearOrderedField R]

theorem frobeniusNorm_toD (sqrt : R → R) (A B : Mat R) :
    frobeniusNorm sqrt A.toD B = some (sqrt (sqDist A B)) := by
  unfold frobeniusNorm sqDist
  simp only []
  rw [accu_eq_some _ (fun i j => (A.get i j - B.get i j) * (A.get i j - B.get i j))]
  · rfl
  · intro i _ j _
    rfl

theorem sum_flatMap_eq {α : Type} (l : List α) (g : α → List R) :
    (l.flatMap g).sum = (l.map fun x => (g x).sum).sum := by
  induction l with
  | nil => rfl
  | cons x xs ih => rw [List.flatMap_cons, List.sum_append, ih, List.map_cons, List.sum_cons]

/-- The sum over the cells is monotone in the cells. -/
theorem entries_sum_le (r c : Nat) (f g : Nat → Nat → R)
    (h : ∀ i < r, ∀ j < c, f i j ≤ g i j) :
    (entries (⟨r, c, f⟩ : Mat R)).sum ≤ (entries (⟨r, c, g⟩ : Mat R)).sum := by
  unfold entries
  simp only []
  rw [sum_flatMap_eq, sum_flatMap_eq]
  apply List.sum_le_sum
  intro j hj
  apply List.sum_le_sum
  intro i hi
  exact h i (List.mem_range.mp hi) j (List.mem_range.mp hj)

theorem list_sum_eq_zero_iff (l : List R) (h : ∀ x ∈ l, 0 ≤ x) :
    l.sum = 0 ↔ ∀ x ∈ l, x = 0 := by
  induction l with
  | nil => simp
  | cons a l ih =>
    have ha : 0 ≤ a := h a (List.mem_cons_self _ _)
    have hl : ∀ x ∈ l, 0 ≤ x := fun x hx => h x (List.mem_cons_of_mem _ hx)
    have hs : 0 ≤ l.sum := List.sum_nonneg hl
    rw [List.sum_cons]
    constructor
    · intro hsum x hx
      have ha0 : a = 0 := by linarith
      have hl0 : l.sum = 0 := by linarith
      rcases List.mem_cons.mp hx with e | e
      · rw [e, ha0]
      · exact (ih hl).mp hl0 x e
    · intro hall
      rw [hall a (List.mem_cons_self _ _), (ih hl).mpr fun x hx =>
        hall x (List.mem_cons_of_mem _ hx), add_zero]

theorem sqDist_nonneg (A B : Mat R) : 0 ≤ sqDist A B := by
  unfold sqDist
  apply List.sum_nonneg
  intro x hx
  rw [mem_entries] at hx
  obtain ⟨j, _, i, _, rfl⟩ := hx
  exact mul_self_nonneg _

theorem sqDist_eq_zero_iff (A B : Mat R) :
    sqDist A B = 0 ↔ ∀ i < A.n_rows, ∀ j < A.n_cols, A.get i j = B.get i j := by
  unfold sqDist
  rw [list_sum_eq_zero_iff]
  · constructor
    · intro h i hi j hj
      have := h _ ((mem_entries _ _).mpr ⟨j, hj, i, hi, rfl⟩)
      exact sub_eq_zero.mp (mul_self_eq_zero.mp this)
    · intro h x hx
      rw [mem_entries] at hx
      obtain ⟨j, hj, i, hi, rfl⟩ := hx
      show (A.get i j - B.get i j) * (A.get i j - B.get i j) = 0
      rw [h i hi j hj, sub_self, mul_zero]
  · intro x hx
    rw [mem_entries] at hx
    obtain ⟨j, _, i, _, rfl⟩ := hx
    exact mul_self_nonneg _

end MetricProofs

/-! ## The draft `lcor`: the scaled score -/

section DraftProofs

theorem toInt_le (x : ℚ) (hx : 0 ≤ x) : ((toInt x : Int) : ℚ) ≤ x := by
  unfold toInt
  have hnum : 0 ≤ x.num := Rat.num_nonneg.mpr hx
  have hden : (0 : Int) < x.den := by exact_mod_cast x.den_pos
  rw [Int.tdiv_eq_ediv hnum hden.le]
  have h1 : x.num / (x.den : Int) * (x.den : Int) ≤ x.num := Int.ediv_mul_le _ (ne_of_gt hden)
  have h2 : ((x.num / (x.den : Int) : Int) : ℚ) * (x.den : ℚ) ≤ (x.num : ℚ) := by
    exact_mod_cast h1
  have hdq : (0 : ℚ) < x.den := by exact_mod_cast x.den_pos
  calc ((x.num / (x.den : Int) : Int) : ℚ)
      = ((x.num / (x.den : Int) : Int) : ℚ) * (x.den : ℚ) / (x.den : ℚ) := by
        rw [mul_div_assoc, div_self (ne_of_gt hdq), mul_one]
    _ ≤ (x.num : ℚ) / (x.den : ℚ) := div_le_div_of_nonneg_right h2 hdq.le
    _ = x := Rat.num_div_den x

/-- The draft never keeps an exchange that does not lower the sum of absolute
differences. -/
theorem lcorDraftAccepts_lt (newSum curSum : ℚ) (hcur : 0 ≤ curSum)
    (h : lcorDraftAccepts newSum (diff_score curSum) = true) : newSum < curSum := by
  unfold lcorDraftAccepts diff_score at h
  rw [decide_eq_true_eq] at h
  have hm : (0 : ℚ) < (multiplier : ℚ) := by
    unfold multiplier
    norm_num
  have h1 := toInt_le (curSum * (multiplier : ℚ)) (mul_nonneg hcur hm.le)
  exact lt_of_mul_lt_mul_right (lt_of_lt_of_le h h1) hm.le

/-- With the score kept as a `double`, as in notes/lcorC.cpp (lines 6, 10, 46,
47), the multiplier does not change the comparison. -/
theorem scaled_double_lt_iff {R : Type} [LinearOrderedField R] (newSum curSum : R) :
    newSum * 10000 < curSum * 10000 ↔ newSum < curSum :=
  mul_lt_mul_right (by norm_num)

end DraftProofs

/-! ## The draft `lcor`: claim -/

/-- C18 (the code on the failing input): for the data with both columns
`1 .. 6` and the target correlation `84999 / 87500`, the first trial of the
draft exchanges rows 1 and 2 of column 1; the sum of absolute differences
falls from `2501 / 43750` to `357 / 6250`, but `int diff_score` holds 571 for
the current state and the test `571.2 < 571` rejects the exchange. -/
theorem lcor_draft_rejects_improving_swap :
    sumAbsDiff draftTarget (computeCorrelation sqrtQ draftData) = some (2501 / 43750) ∧
    sumAbsDiff draftTarget (computeCorrelation sqrtQ (draftData.swap 1 2 1))
      = some (357 / 6250) ∧
    (357 / 6250 : ℚ) < 2501 / 43750 ∧
    diff_score (2501 / 43750) = 571 ∧
    (357 / 6250 : ℚ) * (multiplier : ℚ) = 2856 / 5 ∧
    lcorDraftAccepts (357 / 6250) (diff_score (2501 / 43750)) = false := by
  decide!


/-! ## Exchanges and the variance of a column -/

section DegenerateProofs

variable {R : Type} [LinearOrderedField R]

/-- Exchanging two rows of a column keeps the sum of `g` over every column. -/
theorem colSum_swap (m : Mat R) (i j c k : Nat) (hi : i < m.n_rows) (hj : j < m.n_rows)
    (g : R → R) :
    colSum m.n_rows (fun r => g ((m.swap i j c).get r k))
      = colSum m.n_rows (fun r => g (m.get r k)) := by
  have h1 := colSum_col (m.swap i j c) k g
  rw [Mat.swap_n_rows] at h1
  rw [h1, colSum_col m k g]
  exact ((Mat.swap_col_perm m i j c k hi hj).map g).sum_eq

end DegenerateProofs

/-! ## The optimisers over the score as it is computed: proofs -/

section ComputedScoreProofs

variable {R : Type} [LinearOrderedField R]

/-- The exact-arithmetic trial is the trial with the score `score sqrt target`. -/
theorem swapStep_eq_swapStepWith (sqrt : R → R) (target : Mat R) (i j : Nat)
    (st : SwapState R) (col : Nat) :
    swapStep sqrt target i j st col = swapStepWith (score sqrt target) i j st col := rfl

/-- The exact-arithmetic `lcor_C` is `lcor_C_with` for the score
`score sqrt target`. -/
theorem lcor_C_eq_lcor_C_with (sqrt : R → R) (is_sympd : Mat R → Bool) (data target : Mat R) :
    lcor_C sqrt is_sympd data target = lcor_C_with (score sqrt target) is_sympd data target :=
  rfl

/-- The exact-arithmetic `lcor_C_randomised` is `lcor_C_randomised_with` for
the score `score sqrt target`. -/
theorem lcor_C_randomised_eq_with (sqrt : R → R) (is_sympd : Mat R → Bool)
    (shuffles : Nat → Nat → List Nat × List Nat) (data target : Mat R) (passes : Nat) :
    lcor_C_randomised sqrt is_sympd shuffles data target passes
      = lcor_C_randomised_with (score sqrt target) is_sympd shuffles data target passes := rfl

/-- The trial of `lcor_C`: the state is kept when the new score is not lower,
and otherwise the exchanged data and the new score replace it. -/
theorem swapStepWith_eq (sc : Mat R → Option R) (i j : Nat) (st : SwapState R) (col : Nat) :
    swapStepWith sc i j st col =
      if geD (sc (st.data_mat.swap i j col)) st.initialFrobNorm = true then st
      else ⟨st.data_mat.swap i j col, sc (st.data_mat.swap i j col)⟩ := by
  unfold swapStepWith
  simp only []
  have hsw : (st.data_mat.set i col (st.data_mat.get j col)).set j col (st.data_mat.get i col)
      = st.data_mat.swap i j col := rfl
  rw [hsw]
  split_ifs with h
  · rw [Mat.revert_swap]
  · rfl

/-- The trial of `lcor_C_randomised`. -/
theorem randStepWith_eq (sc : Mat R → Option R) (col : Nat) (st : SwapState R)
    (ij : Nat × Nat) :
    randStepWith sc col st ij =
      if ij.1 = ij.2 then st
      else if geD (sc (st.data_mat.swap ij.1 ij.2 col)) st.initialFrobNorm = true then st
      else ⟨st.data_mat.swap ij.1 ij.2 col, sc (st.data_mat.swap ij.1 ij.2 col)⟩ := by
  unfold randStepWith
  simp only []
  split_ifs with h1 h2
  · rfl
  · rw [Mat.swap_swap]
  · rfl

theorem lcor_C_with_eq_ok (sc : Mat R → Option R) (is_sympd : Mat R → Bool)
    (data target : Mat R) (h : checkIntegrity is_sympd data target = true) :
    lcor_C_with sc is_sympd data target = Except.ok (finalStateWith sc data).data_mat := by
  unfold lcor_C_with
  rw [if_neg (not_not_intro h)]

theorem lcor_C_with_eq_error (sc : Mat R → Option R) (is_sympd : Mat R → Bool)
    (data target : Mat R) (h : checkIntegrity is_sympd data target = false) :
    lcor_C_with sc is_sympd data target = Except.error "Integrity check failed." := by
  unfold lcor_C_with
  rw [if_pos (by rw [h]; exact Bool.false_ne_true)]

theorem lcor_C_randomised_with_eq_ok (sc : Mat R → Option R) (is_sympd : Mat R → Bool)
    (shuffles : Nat → Nat → List Nat × List Nat) (data target : Mat R) (passes : Nat)
    (h : Randomised.checkIntegrity is_sympd data target = true) :
    lcor_C_randomised_with sc is_sympd shuffles data target passes =
      Except.ok (randLoopWith sc data.n_cols passes shuffles (initStateWith sc data)).data_mat := by
  unfold lcor_C_randomised_with
  rw [if_neg (not_not_intro h)]

/-- The nested loops of `lcor_C` run the trials of `swapTrials` in order. -/
theorem swapLoopWith_eq_foldl_trials (sc : Mat R → Option R) (nRows nCols : Nat)
    (st : SwapState R) :
    swapLoopWith sc nCols (swapCandidates nRows) st =
      (swapTrials nRows nCols).foldl (fun s t => swapStepWith sc t.1 t.2.1 s t.2.2) st := by
  unfold swapLoopWith swapTrials
  rw [foldl_flatMap_eq]
  congr 1
  funext s r
  rw [List.foldl_map]

theorem stateTraceWith_getLast (sc : Mat R → Option R) (data : Mat R) :
    (stateTraceWith sc data).getLast? = some (finalStateWith sc data) := by
  unfold stateTraceWith finalStateWith
  rw [getLast?_scanl, swapLoopWith_eq_foldl_trials]

/-- A trial keeps the property that the running score is the score of the
current data. -/
theorem swapStepWith_synced (sc : Mat R → Option R) (i j col : Nat) (st : SwapState R)
    (hs : st.initialFrobNorm = sc st.data_mat) :
    (swapStepWith sc i j st col).initialFrobNorm = sc (swapStepWith sc i j st col).data_mat := by
  rw [swapStepWith_eq]
  split_ifs
  · exact hs
  · rfl

/-- Every state of the run carries the score of its own data. -/
theorem stateTraceWith_synced (sc : Mat R → Option R) (data : Mat R) :
    ∀ st ∈ stateTraceWith sc data, st.initialFrobNorm = sc st.data_mat := by
  unfold stateTraceWith
  refine mem_scanl_invariant
    (fun s : SwapState R => s.initialFrobNorm = sc s.data_mat) _ _ ?_ _ rfl
  intro s t _ hs
  exact swapStepWith_synced sc t.1 t.2.1 t.2.2 s hs

theorem swapStepWith_columnsPerm (sc : Mat R → Option R) (data : Mat R) (i j col : Nat)
    (st : SwapState R) (hi : i < data.n_rows) (hj : j < data.n_rows)
    (h : ColumnsPerm data st.data_mat) :
    ColumnsPerm data (swapStepWith sc i j st col).data_mat := by
  rw [swapStepWith_eq]
  split_ifs
  · exact h
  · exact h.swap i j col hi hj

/-- Every state of the run holds a rearrangement of the columns of the input. -/
theorem stateTraceWith_columnsPerm (sc : Mat R → Option R) (data : Mat R) :
    ∀ st ∈ stateTraceWith sc data, ColumnsPerm data st.data_mat := by
  unfold stateTraceWith
  refine mem_scanl_invariant (fun s : SwapState R => ColumnsPerm data s.data_mat) _ _ ?_ _
    (ColumnsPerm.refl data)
  intro s t ht hs
  have hlt := mem_swapTrials _ _ t ht
  exact swapStepWith_columnsPerm sc data t.1 t.2.1 t.2.2 s hlt.1 hlt.2 hs

theorem finalStateWith_columnsPerm (sc : Mat R → Option R) (data : Mat R) :
    ColumnsPerm data (finalStateWith sc data).data_mat :=
  stateTraceWith_columnsPerm sc data _
    (List.mem_of_mem_getLast? (stateTraceWith_getLast sc data))

/-- Every tentative state of the run holds a rearrangement of the columns of
the input. -/
theorem tentativeTraceWith_columnsPerm (sc : Mat R → Option R) (data : Mat R) :
    ∀ m ∈ tentativeTraceWith sc data, ColumnsPerm data m := by
  intro m hm
  unfold tentativeTraceWith at hm
  rw [List.mem_map] at hm
  obtain ⟨p, hp, rfl⟩ := hm
  obtain ⟨s, t⟩ := p
  have hz := List.of_mem_zip hp
  have hlt := mem_swapTrials _ _ t hz.2
  exact (stateTraceWith_columnsPerm sc data s hz.1).swap t.1 t.2.1 t.2.2 hlt.1 hlt.2

/-- What a trial does to the running score, whether or not the scores are
defined: it keeps the state, or it stores a score that the comparison `>=`
did not find to be at least the current one. -/
theorem swapStepWith_score (sc : Mat R → Option R) (i j col : Nat) (st : SwapState R) :
    swapStepWith sc i j st col = st ∨
      geD (swapStepWith sc i j st col).initialFrobNorm st.initialFrobNorm = false := by
  rw [swapStepWith_eq]
  split_ifs with h
  · exact Or.inl rfl
  · exact Or.inr (Bool.eq_false_iff.mpr h)

/-- Two defined scores of which the second was not found to be at least the
first: the second is lower. -/
theorem scoreStep_of_geD_false {a b : Option R} (ha : a ≠ none) (hb : b ≠ none)
    (h : geD b a = false) : ScoreStep a b := by
  obtain ⟨x, rfl⟩ := Option.ne_none_iff_exists'.mp ha
  obtain ⟨y, rfl⟩ := Option.ne_none_iff_exists'.mp hb
  refine ⟨x, y, rfl, rfl, ?_⟩
  simp only [geD, decide_eq_false_iff_not, not_le] at h
  exact le_of_lt h

theorem scoreStep_refl_of_ne_none {a : Option R} (ha : a ≠ none) : ScoreStep a a := by
  obtain ⟨x, rfl⟩ := Option.ne_none_iff_exists'.mp ha
  exact ⟨x, x, rfl, rfl, le_refl _⟩

/-- Along a chain of a transitive relation the first element is related to the
last one, unless the chain has a single element. -/
theorem chain_rel_getLast {α : Type} (r : α → α → Prop) (htrans : ∀ a b c, r a b → r b c → r a c)
    (l : List α) : ∀ a b, List.Chain r a l → (a :: l).getLast? = some b → b = a ∨ r a b := by
  induction l with
  | nil =>
    intro a b _ hb
    left
    simpa using hb.symm
  | cons y ys ih =>
    intro a b hc hb
    rw [List.chain_cons] at hc
    have hb' : (y :: ys).getLast? = some b := by
      rw [← hb]
      simp [List.getLast?_cons_cons]
    rcases ih y b hc.2 hb' with h | h
    · right
      rw [h]
      exact hc.1
    · right
      exact htrans _ _ _ hc.1 h

/-- The trial of the randomised variant keeps the invariant of the run and,
when the score of every rearrangement of the input is defined, does not raise
the score. -/
theorem randStepWith_inv (sc : Mat R → Option R) (data : Mat R)
    (hdef : ∀ m, ColumnsPerm data m → sc m ≠ none)
    (col : Nat) (ij : Nat × Nat) (hi : ij.1 < data.n_rows) (hj : ij.2 < data.n_rows)
    (st : SwapState R)
    (h : ColumnsPerm data st.data_mat ∧ st.initialFrobNorm = sc st.data_mat) :
    (ColumnsPerm data (randStepWith sc col st ij).data_mat ∧
      (randStepWith sc col st ij).initialFrobNorm = sc (randStepWith sc col st ij).data_mat) ∧
    ScoreStep st.initialFrobNorm (randStepWith sc col st ij).initialFrobNorm := by
  obtain ⟨hperm, hsync⟩ := h
  have hcur : st.initialFrobNorm ≠ none := hsync ▸ hdef _ hperm
  have hperm' := hperm.swap ij.1 ij.2 col hi hj
  rw [randStepWith_eq]
  split_ifs with heq hge
  · exact ⟨⟨hperm, hsync⟩, scoreStep_refl_of_ne_none hcur⟩
  · exact ⟨⟨hperm, hsync⟩, scoreStep_refl_of_ne_none hcur⟩
  · exact ⟨⟨hperm', rfl⟩, scoreStep_of_geD_false hcur (hdef _ hperm')
      (Bool.eq_false_iff.mpr hge)⟩

/-- One pass keeps the invariant of the run and does not raise the score. -/
theorem randPassWith_inv (sc : Mat R → Option R) (data : Mat R)
    (hdef : ∀ m, ColumnsPerm data m → sc m ≠ none)
    (nCols : Nat) (shuffle : Nat → List Nat × List Nat)
    (hs : ∀ col, (shuffle col).1.Perm (List.range data.n_rows) ∧
      (shuffle col).2.Perm (List.range data.n_rows))
    (st : SwapState R)
    (h : ColumnsPerm data st.data_mat ∧ st.initialFrobNorm = sc st.data_mat) :
    (ColumnsPerm data (randPassWith sc nCols shuffle st).data_mat ∧
      (randPassWith sc nCols shuffle st).initialFrobNorm
        = sc (randPassWith sc nCols shuffle st).data_mat) ∧
    ScoreStep st.initialFrobNorm (randPassWith sc nCols shuffle st).initialFrobNorm := by
  have hcur : st.initialFrobNorm ≠ none := h.2 ▸ hdef _ h.1
  unfold randPassWith
  refine foldl_invariant
    (fun s : SwapState R => (ColumnsPerm data s.data_mat ∧
      s.initialFrobNorm = sc s.data_mat) ∧
      ScoreStep st.initialFrobNorm s.initialFrobNorm) _ _ ?_ st
    ⟨h, scoreStep_refl_of_ne_none hcur⟩
  intro s col _ hs1
  refine foldl_invariant
    (fun s : SwapState R => (ColumnsPerm data s.data_mat ∧
      s.initialFrobNorm = sc s.data_mat) ∧
      ScoreStep st.initialFrobNorm s.initialFrobNorm) _ _ ?_ s hs1
  intro s' ij hij hs2
  have hlt := mem_zip_shuffles (hs col).1 (hs col).2 hij
  have h1 := randStepWith_inv sc data hdef col ij hlt.1 hlt.2 s' hs2.1
  exact ⟨h1.1, hs2.2.trans h1.2⟩

/-- The first element of a chain of a transitive relation is related to the
last one, unless they are the same element. -/
theorem chain'_rel_head_getLast {α : Type} (r : α → α → Prop)
    (htrans : ∀ a b c, r a b → r b c → r a c) (l : List α) (a b : α)
    (hc : List.Chain' r l) (hh : l.head? = some a) (hl : l.getLast? = some b) :
    b = a ∨ r a b := by
  cases l with
  | nil => cases hh
  | cons x xs =>
    have hx : x = a := by simpa using hh
    subst hx
    exact chain_rel_getLast r htrans xs x b hc hl

end ComputedScoreProofs

/-! ## The deterministic optimiser: the running score -/

section ComputedScoreClaims

variable {R : Type} [LinearOrderedField R]

/-- C3 (counterexample): the data with columns `(2^600, 2·2^600, 3·2^600)` and
`(1, 3, 2)` is accepted with the identity target and both columns have non-zero
variance, but in binary64 the squares of column 0 are infinite: the score of
the input is NaN, the running score is NaN after every trial, and `lcor_C`
returns column 1 rearranged to `(2, 1, 3)` with a score that is NaN: the
comparison `>=` of the initial score with the final one is false. -/
theorem lcor_C_overflow_score_undefined :
    checkIntegrity is_sympd_exact overflowData identityTarget = true ∧
    (∀ c < overflowData.n_cols, varTerm overflowData c ≠ 0) ∧
    scoreD identityTarget overflowData = none ∧
    (∀ s ∈ scoreTraceWith (scoreD identityTarget) overflowData, s = none) ∧
    ∃ out, lcor_C_with (scoreD identityTarget) is_sympd_exact overflowData identityTarget
        = Except.ok out ∧
      overflowData.col 1 = [1, 3, 2] ∧ out.col 1 = [2, 1, 3] ∧
      scoreD identityTarget out = none ∧
      geD (scoreD identityTarget overflowData) (scoreD identityTarget out) = false :=
  ⟨by decide!, by decide!, by decide!, by decide!, _,
    lcor_C_with_eq_ok (scoreD identityTarget) is_sympd_exact overflowData identityTarget
      (by decide!), by decide!, by decide!, by decide!, by decide!⟩

/-- C3 (amended): for every accepted input, and for the score computed in any
arithmetic, if the running score of `lcor_C` is never NaN then its values never
increase from one trial to the next; the trace starts at the score of the input
and ends at the score of the returned data, and the Frobenius distance of the
returned data to the target is at most that of the input. -/
theorem lcor_C_defined_score_non_increasing (sc : Mat R → Option R) (is_sympd : Mat R → Bool)
    (data target : Mat R) (h : checkIntegrity is_sympd data target = true)
    (hdef : ∀ s ∈ scoreTraceWith sc data, s ≠ none) :
    List.Chain' ScoreStep (scoreTraceWith sc data) ∧
    ∃ out, lcor_C_with sc is_sympd data target = Except.ok out ∧
      (scoreTraceWith sc data).head? = some (sc data) ∧
      (scoreTraceWith sc data).getLast? = some (sc out) ∧
      ∃ a b, sc data = some a ∧ sc out = some b ∧ b ≤ a := by
  have hmem : ∀ st ∈ stateTraceWith sc data, st.initialFrobNorm ≠ none :=
    fun st hst => hdef _ (List.mem_map_of_mem _ hst)
  have hchain : List.Chain'
      (fun s s' : SwapState R => s' = s ∨ geD s'.initialFrobNorm s.initialFrobNorm = false)
      (stateTraceWith sc data) := by
    unfold stateTraceWith
    exact chain_scanl (fun _ => True) _ _ _
      (fun s t _ _ => ⟨trivial, swapStepWith_score sc t.1 t.2.1 t.2.2 s⟩) _ trivial
  have hchain2 : List.Chain'
      (fun s s' : SwapState R => ScoreStep s.initialFrobNorm s'.initialFrobNorm)
      (stateTraceWith sc data) := by
    refine (List.Chain'.iff_mem.mp hchain).imp ?_
    rintro a b ⟨ha, hb, hab⟩
    rcases hab with hab | hab
    · rw [hab]
      exact scoreStep_refl_of_ne_none (hmem a ha)
    · exact scoreStep_of_geD_false (hmem a ha) (hmem b hb) hab
  have hhead : (stateTraceWith sc data).head? = some (initStateWith sc data) :=
    head?_scanl _ _ _
  have hlast := stateTraceWith_getLast sc data
  have hfin : (finalStateWith sc data).initialFrobNorm = sc (finalStateWith sc data).data_mat :=
    stateTraceWith_synced sc data _ (List.mem_of_mem_getLast? hlast)
  refine ⟨?_, _, lcor_C_with_eq_ok sc is_sympd data target h, ?_, ?_, ?_⟩
  · unfold scoreTraceWith
    rw [List.chain'_map]
    exact hchain2
  · unfold scoreTraceWith
    rw [List.head?_map, hhead]
    rfl
  · unfold scoreTraceWith
    rw [List.getLast?_map, hlast, Option.map_some', hfin]
  · have hinit : (initStateWith sc data).initialFrobNorm ≠ none :=
      hmem _ (List.mem_of_mem_head? hhead)
    rcases chain'_rel_head_getLast
      (fun s s' : SwapState R => ScoreStep s.initialFrobNorm s'.initialFrobNorm)
      (fun _ _ _ h1 h2 => ScoreStep.trans h1 h2) _ _ _ hchain2 hhead hlast with hsame | hrel
    · obtain ⟨x, hx⟩ := Option.ne_none_iff_exists'.mp hinit
      refine ⟨x, x, hx, ?_, le_refl _⟩
      rw [← hfin, hsame]
      exact hx
    · obtain ⟨x, y, hx, hy, hxy⟩ := hrel
      exact ⟨x, y, hx, hfin ▸ hy, hxy⟩

theorem lcor_C_defined_score_non_increasing_witness :
    checkIntegrity is_sympd_exact scenarioData identityTarget = true ∧
    (∀ s ∈ scoreTraceWith (score sqrtQ identityTarget) scenarioData, s ≠ none) ∧
    (List.Chain' ScoreStep (scoreTraceWith (score sqrtQ identityTarget) scenarioData) ∧
    ∃ out, lcor_C_with (score sqrtQ identityTarget) is_sympd_exact scenarioData identityTarget
        = Except.ok out ∧
      (scoreTraceWith (score sqrtQ identityTarget) scenarioData).head?
        = some (score sqrtQ identityTarget scenarioData) ∧
      (scoreTraceWith (score sqrtQ identityTarget) scenarioData).getLast?
        = some (score sqrtQ identityTarget out) ∧
      ∃ a b, score sqrtQ identityTarget scenarioData = some a ∧
        score sqrtQ identityTarget out = some b ∧ b ≤ a) ∧
    checkIntegrity is_sympd_exact twoColData halfTarget = true ∧
    (∀ s ∈ scoreTraceWith (scoreD halfTarget) twoColData, s ≠ none) ∧
    (List.Chain' ScoreStep (scoreTraceWith (scoreD halfTarget) twoColData) ∧
    ∃ out, lcor_C_with (scoreD halfTarget) is_sympd_exact twoColData halfTarget
        = Except.ok out ∧
      (scoreTraceWith (scoreD halfTarget) twoColData).head?
        = some (scoreD halfTarget twoColData) ∧
      (scoreTraceWith (scoreD halfTarget) twoColData).getLast?
        = some (scoreD halfTarget out) ∧
      ∃ a b, scoreD halfTarget twoColData = some a ∧
        scoreD halfTarget out = some b ∧ b ≤ a) :=
  ⟨by decide!, by decide!,
    lcor_C_defined_score_non_increasing (score sqrtQ identityTarget) is_sympd_exact
      scenarioData identityTarget (by decide!) (by decide!),
    by decide!, by decide!,
    lcor_C_defined_score_non_increasing (scoreD halfTarget) is_sympd_exact
      twoColData halfTarget (by decide!) (by decide!)⟩

/-- C19: for every accepted input, and for the score computed in any
arithmetic, at the start of the swap loop of `lcor_C` and after every iteration
the running variable `initialFrobNorm` holds the value that
`frobeniusNorm(computeCorrelation(data_mat), target)` returns for the current
`data_mat` (a NaN where that value is a NaN); the first state is the one built
at line 106 and the last one holds the matrix `lcor_C` returns. -/
theorem lcor_C_running_score_synchronised (sc : Mat R → Option R) (is_sympd : Mat R → Bool)
    (data target : Mat R) (h : checkIntegrity is_sympd data target = true) :
    (stateTraceWith sc data).head? = some ⟨data, sc data⟩ ∧
    (∃ out, lcor_C_with sc is_sympd data target = Except.ok out ∧
      (stateTraceWith sc data).getLast?.map (fun s => s.data_mat) = some out) ∧
    ∀ st ∈ stateTraceWith sc data, st.initialFrobNorm = sc st.data_mat := by
  refine ⟨head?_scanl _ _ _, ⟨_, lcor_C_with_eq_ok sc is_sympd data target h, ?_⟩,
    stateTraceWith_synced sc data⟩
  rw [stateTraceWith_getLast]
  rfl

theorem lcor_C_running_score_synchronised_witness :
    checkIntegrity is_sympd_exact scenarioData identityTarget = true ∧
    ((stateTraceWith (score sqrtQ identityTarget) scenarioData).head?
      = some ⟨scenarioData, score sqrtQ identityTarget scenarioData⟩ ∧
    (∃ out, lcor_C_with (score sqrtQ identityTarget) is_sympd_exact scenarioData identityTarget
        = Except.ok out ∧
      (stateTraceWith (score sqrtQ identityTarget) scenarioData).getLast?.map
        (fun s => s.data_mat) = some out) ∧
    ∀ st ∈ stateTraceWith (score sqrtQ identityTarget) scenarioData,
      st.initialFrobNorm
        = frobeniusNorm sqrtQ (computeCorrelation sqrtQ st.data_mat) identityTarget) ∧
    checkIntegrity is_sympd_exact overflowData identityTarget = true ∧
    ((stateTraceWith (scoreD identityTarget) overflowData).head?
      = some ⟨overflowData, scoreD identityTarget overflowData⟩ ∧
    (∃ out, lcor_C_with (scoreD identityTarget) is_sympd_exact overflowData identityTarget
        = Except.ok out ∧
      (stateTraceWith (scoreD identityTarget) overflowData).getLast?.map
        (fun s => s.data_mat) = some out) ∧
    ∀ st ∈ stateTraceWith (scoreD identityTarget) overflowData,
      st.initialFrobNorm = scoreD identityTarget st.data_mat) :=
  ⟨by decide!,
    lcor_C_running_score_synchronised (score sqrtQ identityTarget) is_sympd_exact
      scenarioData identityTarget (by decide!),
    by decide!,
    lcor_C_running_score_synchronised (scoreD identityTarget) is_sympd_exact
      overflowData identityTarget (by decide!)⟩

/-- C12 (amended): for every data matrix with a column whose values are all
equal, and for the score computed in any arithmetic, `lcor_C` signals an error
only when `checkIntegrity` rejects the target; for an accepted target the run
is not aborted: `lcor_C` returns a matrix whose columns are permutations of the
input columns, the constant column as it was. -/
theorem lcor_C_constant_column_not_signalled (sc : Mat R → Option R)
    (is_sympd : Mat R → Bool) (data target : Mat R) (c : Nat)
    (hconst : ∀ i < data.n_rows, data.get i c = data.get 0 c) :
    (checkIntegrity is_sympd data target = false →
      lcor_C_with sc is_sympd data target = Except.error "Integrity check failed.") ∧
    (checkIntegrity is_sympd data target = true →
      ∃ out, lcor_C_with sc is_sympd data target = Except.ok out ∧
        (∀ k, (out.col k).Perm (data.col k)) ∧
        ∀ i < data.n_rows, out.get i c = data.get 0 c) := by
  refine ⟨lcor_C_with_eq_error sc is_sympd data target, fun h =>
    ⟨_, lcor_C_with_eq_ok sc is_sympd data target h, (finalStateWith_columnsPerm sc data).2.2,
      fun i hi => ?_⟩⟩
  have hperm := finalStateWith_columnsPerm sc data
  have hmem : (finalStateWith sc data).data_mat.get i c ∈ (finalStateWith sc data).data_mat.col c :=
    List.mem_map.mpr ⟨i, List.mem_range.mpr (hperm.1 ▸ hi), rfl⟩
  have hmem2 := (hperm.2.2 c).subset hmem
  obtain ⟨k, hk, hk2⟩ := List.mem_map.mp hmem2
  rw [← hk2]
  exact hconst k (List.mem_range.mp hk)

theorem lcor_C_constant_column_not_signalled_witness :
    (∀ i < constColData.n_rows, constColData.get i 0 = constColData.get 0 0) ∧
    checkIntegrity is_sympd_exact constColData identityTarget = true ∧
    ∃ out, lcor_C_with (score sqrtQ identityTarget) is_sympd_exact constColData identityTarget
        = Except.ok out ∧
      (∀ k, (out.col k).Perm (constColData.col k)) ∧
      ∀ i < constColData.n_rows, out.get i 0 = constColData.get 0 0 :=
  ⟨by decide!, by decide!,
    (lcor_C_constant_column_not_signalled (score sqrtQ identityTarget) is_sympd_exact
      constColData identityTarget 0 (by decide!)).2 (by decide!)⟩

end ComputedScoreClaims

/-! ## The randomised optimiser: the score across passes -/

section RandComputedScoreClaims

variable {R : Type} [LinearOrderedField R]

/-- C11 (counterexample): with the data whose column 0 is
`(2^600, 2·2^600, 3·2^600)`, accepted with the identity target and with
non-zero variance in both columns, the score computed in binary64 is NaN: in a
run of one pass with the index vectors `(1, 2, 0)` and `(0, 1, 2)` the running
score is NaN at both pass boundaries and `lcor_C_randomised` returns column 1
rearranged to `(1, 2, 3)` with a score that is NaN: the comparison `>=`
of the initial score with the final one is false. -/
theorem lcor_C_randomised_overflow_score_undefined :
    ValidShuffles overflowData.n_rows rotationShuffles ∧
    Randomised.checkIntegrity is_sympd_exact overflowData identityTarget = true ∧
    (∀ c < overflowData.n_cols, varTerm overflowData c ≠ 0) ∧
    (∀ st ∈ passTraceWith (scoreD identityTarget) rotationShuffles overflowData 1,
      st.initialFrobNorm = none) ∧
    ∃ out, lcor_C_randomised_with (scoreD identityTarget) is_sympd_exact rotationShuffles
        overflowData identityTarget 1 = Except.ok out ∧
      overflowData.col 1 = [1, 3, 2] ∧ out.col 1 = [1, 2, 3] ∧
      scoreD identityTarget out = none ∧
      geD (scoreD identityTarget overflowData) (scoreD identityTarget out) = false :=
  ⟨fun _ _ => ⟨(by decide : [1, 2, 0].Perm (List.range 3)),
      (by decide : [0, 1, 2].Perm (List.range 3))⟩,
    by decide!, by decide!, by decide!, _,
    lcor_C_randomised_with_eq_ok (scoreD identityTarget) is_sympd_exact rotationShuffles
      overflowData identityTarget 1 (by decide!), by decide!, by decide!, by decide!,
    by decide!⟩

/-- C11 (amended): for every pass count, every choice of the shuffled index
vectors and every accepted input, and for the score computed in any arithmetic
in which the score of every rearrangement of the columns of the input is
defined (not NaN), the running score of `lcor_C_randomised` at the pass
boundaries is the score of the data at that boundary and never increases from
one pass to the next; the score of the returned data is at most the score after
every earlier pass and at most the score of the input. -/
theorem lcor_C_randomised_defined_score_across_passes (sc : Mat R → Option R)
    (is_sympd : Mat R → Bool) (shuffles : Nat → Nat → List Nat × List Nat)
    (data target : Mat R) (passes : Nat)
    (hs : ValidShuffles data.n_rows shuffles)
    (h : Randomised.checkIntegrity is_sympd data target = true)
    (hdef : ∀ m, ColumnsPerm data m → sc m ≠ none) :
    List.Chain' (fun s s' : SwapState R => ScoreStep s.initialFrobNorm s'.initialFrobNorm)
      (passTraceWith sc shuffles data passes) ∧
    (∀ st ∈ passTraceWith sc shuffles data passes, st.initialFrobNorm = sc st.data_mat) ∧
    ∃ out, lcor_C_randomised_with sc is_sympd shuffles data target passes = Except.ok out ∧
      (passTraceWith sc shuffles data passes).head? = some ⟨data, sc data⟩ ∧
      (passTraceWith sc shuffles data passes).getLast?.map (fun s => s.data_mat) = some out ∧
      ∀ st ∈ passTraceWith sc shuffles data passes, ScoreStep (sc st.data_mat) (sc out) := by
  have hinit : ColumnsPerm data (initStateWith sc data).data_mat ∧
      (initStateWith sc data).initialFrobNorm = sc (initStateWith sc data).data_mat :=
    ⟨ColumnsPerm.refl data, rfl⟩
  have hstep : ∀ (s : SwapState R) (pass : Nat), pass ∈ List.range passes →
      (ColumnsPerm data s.data_mat ∧ s.initialFrobNorm = sc s.data_mat) →
      (ColumnsPerm data (randPassWith sc data.n_cols (shuffles pass) s).data_mat ∧
        (randPassWith sc data.n_cols (shuffles pass) s).initialFrobNorm
          = sc (randPassWith sc data.n_cols (shuffles pass) s).data_mat) ∧
      ScoreStep s.initialFrobNorm
        (randPassWith sc data.n_cols (shuffles pass) s).initialFrobNorm :=
    fun s pass _ hs1 =>
      randPassWith_inv sc data hdef data.n_cols (shuffles pass) (hs pass) s hs1
  have hsync := mem_scanl_invariant
    (fun s : SwapState R => ColumnsPerm data s.data_mat ∧ s.initialFrobNorm = sc s.data_mat)
    (fun s pass => randPassWith sc data.n_cols (shuffles pass) s) (List.range passes)
    (fun s pass hp hs1 => (hstep s pass hp hs1).1) (initStateWith sc data) hinit
  have hlast := scanl_rel_last
    (fun s : SwapState R => ColumnsPerm data s.data_mat ∧ s.initialFrobNorm = sc s.data_mat)
    (fun s s' : SwapState R => ScoreStep s.initialFrobNorm s'.initialFrobNorm)
    (fun s pass => randPassWith sc data.n_cols (shuffles pass) s) (List.range passes)
    hstep (fun s hs1 => scoreStep_refl_of_ne_none (hs1.2 ▸ hdef _ hs1.1))
    (fun _ _ _ h1 h2 => h1.trans h2) (initStateWith sc data) hinit
  have hfold := foldl_invariant
    (fun s : SwapState R => ColumnsPerm data s.data_mat ∧ s.initialFrobNorm = sc s.data_mat)
    (fun s pass => randPassWith sc data.n_cols (shuffles pass) s) (List.range passes)
    (fun s pass hp hs1 => (hstep s pass hp hs1).1) (initStateWith sc data) hinit
  refine ⟨?_, fun st hst => (hsync st hst).2, _,
    lcor_C_randomised_with_eq_ok sc is_sympd shuffles data target passes h, ?_, ?_, ?_⟩
  · exact chain_scanl _ _ _ _ hstep _ hinit
  · exact head?_scanl _ _ _
  · unfold passTraceWith
    rw [getLast?_scanl]
    rfl
  · intro st hst
    have h1 : ScoreStep st.initialFrobNorm
        (randLoopWith sc data.n_cols passes shuffles (initStateWith sc data)).initialFrobNorm :=
      hlast st hst
    have h2 : (randLoopWith sc data.n_cols passes shuffles (initStateWith sc data)).initialFrobNorm
        = sc (randLoopWith sc data.n_cols passes shuffles (initStateWith sc data)).data_mat :=
      hfold.2
    rw [(hsync st hst).2, h2] at h1
    exact h1

/-- In exact arithmetic the score of every rearrangement of columns of non-zero
variance is defined. -/
theorem score_ne_none_of_columnsPerm (sqrt : R → R) (hsqrt : ∀ x, 0 < x → sqrt x ≠ 0)
    (data target : Mat R) (hvar : ∀ c < data.n_cols, varTerm data c ≠ 0) (m : Mat R)
    (hm : ColumnsPerm data m) : score sqrt target m ≠ none := by
  obtain ⟨v, _, hv⟩ := score_eq_sqrt_of_corDefined sqrt target m
    ((corDefined_of_varTerm_ne_zero sqrt hsqrt data hvar).of_columnsPerm hm)
  rw [hv]
  exact Option.some_ne_none _

theorem lcor_C_randomised_defined_score_across_passes_witness :
    ValidShuffles twoColData.n_rows fixedShuffles ∧
    Randomised.checkIntegrity is_sympd_exact twoColData halfTarget = true ∧
    (∀ m, ColumnsPerm twoColData m → score sqrtQ halfTarget m ≠ none) ∧
    (List.Chain' (fun s s' : SwapState ℚ => ScoreStep s.initialFrobNorm s'.initialFrobNorm)
      (passTraceWith (score sqrtQ halfTarget) fixedShuffles twoColData 10) ∧
    (∀ st ∈ passTraceWith (score sqrtQ halfTarget) fixedShuffles twoColData 10,
      st.initialFrobNorm = score sqrtQ halfTarget st.data_mat) ∧
    ∃ out, lcor_C_randomised_with (score sqrtQ halfTarget) is_sympd_exact fixedShuffles
        twoColData halfTarget 10 = Except.ok out ∧
      (passTraceWith (score sqrtQ halfTarget) fixedShuffles twoColData 10).head?
        = some ⟨twoColData, score sqrtQ halfTarget twoColData⟩ ∧
      (passTraceWith (score sqrtQ halfTarget) fixedShuffles twoColData 10).getLast?.map
        (fun s => s.data_mat) = some out ∧
      ∀ st ∈ passTraceWith (score sqrtQ halfTarget) fixedShuffles twoColData 10,
        ScoreStep (score sqrtQ halfTarget st.data_mat) (score sqrtQ halfTarget out)) :=
  ⟨fun _ _ => ⟨(by decide : [1, 0].Perm (List.range 2)),
      (by decide : [0, 1].Perm (List.range 2))⟩,
    by decide!,
    score_ne_none_of_columnsPerm sqrtQ (fun x hx => ne_of_gt (sqrtQ_pos x hx)) twoColData
      halfTarget (by decide!),
    lcor_C_randomised_defined_score_across_passes (score sqrtQ halfTarget) is_sympd_exact
      fixedShuffles twoColData halfTarget 10
      (fun _ _ => ⟨(by decide : [1, 0].Perm (List.range 2)),
        (by decide : [0, 1].Perm (List.range 2))⟩)
      (by decide!)
      (score_ne_none_of_columnsPerm sqrtQ (fun x hx => ne_of_gt (sqrtQ_pos x hx)) twoColData
        halfTarget (by decide!))⟩

end RandComputedScoreClaims

/-! ## The distance metric over any arithmetic -/

section MetricWithProofs

variable {R S : Type} [LinearOrderedField R] [Preorder S]

/-- The exact-arithmetic `frobeniusNorm` on matrices of defined entries is
`frobeniusNormWith` for the operations of the field. -/
theorem frobeniusNorm_toD_eq_with (sqrt : R → R) (A B : Mat R) :
    frobeniusNorm sqrt A.toD B
      = some (frobeniusNormWith (fun a b => (a - b) * (a - b)) (fun x y => x + y) 0 sqrt A B) := by
  rw [frobeniusNorm_toD]
  unfold sqDist frobeniusNormWith
  rw [List.sum_eq_foldl]

end MetricWithProofs

/-! ## The distance metric: claim -/

/-- C21 (counterexample): the data with columns `(2^600, 2·2^600, 3·2^600)` and
`(1, 3, 2)` is accepted and both columns have non-zero variance, yet the
correlation of column 0 with itself, evaluated in binary64, is NaN for the
input and for every tentative state of the run; and for the column holding the
doubles nearest to `0.1, 0.2, 0.3` the sum accumulated in binary64 in row order
changes when rows 0 and 2 are exchanged. -/
theorem lcor_C_overflow_correlation_undefined :
    checkIntegrity is_sympd_exact overflowData identityTarget = true ∧
    (∀ c < overflowData.n_cols, varTerm overflowData c ≠ 0) ∧
    (computeCorrelationD overflowData).get 0 0 = Dbl.nan ∧
    (∀ m ∈ tentativeTraceWith (scoreD identityTarget) overflowData,
      (computeCorrelationD m).get 0 0 = Dbl.nan) ∧
    colSumD tenthsData.n_rows (fun k => Dbl.round ((tenthsData.swap 0 2 0).get k 0))
      ≠ colSumD tenthsData.n_rows (fun k => Dbl.round (tenthsData.get k 0)) := by
  decide!

/-- C21 (amended): exchanging the values at rows `i` and `j` of a column leaves
every column with the same values, hence with the same exact sum `Σx`, sum of
squares `Σx²` and variance term `n·Σx² − (Σx)²`; so when every column of the
input of `lcor_C` has non-zero variance, every column of every accepted and of
every tentative state of the run has non-zero variance, whatever arithmetic
computes the score. -/
theorem lcor_C_swaps_keep_exact_variance {R : Type} [LinearOrderedField R]
    (sc : Mat R → Option R) (data : Mat R) :
    (∀ (m : Mat R) (i j c k : Nat), i < m.n_rows → j < m.n_rows →
      ((m.swap i j c).col k).Perm (m.col k) ∧
      colSum m.n_rows (fun r => (m.swap i j c).get r k)
        = colSum m.n_rows (fun r => m.get r k) ∧
      colSum m.n_rows (fun r => (m.swap i j c).get r k * (m.swap i j c).get r k)
        = colSum m.n_rows (fun r => m.get r k * m.get r k) ∧
      varTerm (m.swap i j c) k = varTerm m k) ∧
    ((∀ c < data.n_cols, varTerm data c ≠ 0) →
      (∀ st ∈ stateTraceWith sc data, ∀ c < data.n_cols, varTerm st.data_mat c ≠ 0) ∧
      (∀ m ∈ tentativeTraceWith sc data, ∀ c < data.n_cols, varTerm m c ≠ 0)) := by
  have hkeep : ∀ m : Mat R, ColumnsPerm data m → (∀ c < data.n_cols, varTerm data c ≠ 0) →
      ∀ c < data.n_cols, varTerm m c ≠ 0 := by
    intro m hm hvar c hc
    rw [varTerm_eq_of_perm m data c hm.1 (hm.2.2 c)]
    exact hvar c hc
  refine ⟨fun m i j c k hi hj => ⟨Mat.swap_col_perm m i j c k hi hj,
    colSum_swap m i j c k hi hj fun x => x, colSum_swap m i j c k hi hj fun x => x * x, ?_⟩,
    fun hvar => ⟨fun st hst => hkeep _ (stateTraceWith_columnsPerm sc data st hst) hvar,
    fun m hm => hkeep _ (tentativeTraceWith_columnsPerm sc data m hm) hvar⟩⟩
  exact varTerm_eq_of_perm (m.swap i j c) m k rfl (Mat.swap_col_perm m i j c k hi hj)

theorem lcor_C_swaps_keep_exact_variance_witness :
    (∀ c < scenarioData.n_cols, varTerm scenarioData c ≠ 0) ∧
    (0 < scenarioData.n_rows ∧ 1 < scenarioData.n_rows) ∧
    (((scenarioData.swap 0 1 0).col 0).Perm (scenarioData.col 0) ∧
      colSum scenarioData.n_rows (fun r => (scenarioData.swap 0 1 0).get r 0)
        = colSum scenarioData.n_rows (fun r => scenarioData.get r 0) ∧
      colSum scenarioData.n_rows
          (fun r => (scenarioData.swap 0 1 0).get r 0 * (scenarioData.swap 0 1 0).get r 0)
        = colSum scenarioData.n_rows (fun r => scenarioData.get r 0 * scenarioData.get r 0) ∧
      varTerm (scenarioData.swap 0 1 0) 0 = varTerm scenarioData 0) ∧
    ((∀ st ∈ stateTraceWith (score sqrtQ identityTarget) scenarioData,
        ∀ c < scenarioData.n_cols, varTerm st.data_mat c ≠ 0) ∧
      (∀ m ∈ tentativeTraceWith (score sqrtQ identityTarget) scenarioData,
        ∀ c < scenarioData.n_cols, varTerm m c ≠ 0)) :=
  ⟨by decide!, by decide!,
    (lcor_C_swaps_keep_exact_variance (score sqrtQ identityTarget) scenarioData).1
      scenarioData 0 1 0 0 (by decide!) (by decide!),
    (lcor_C_swaps_keep_exact_variance (score sqrtQ identityTarget) scenarioData).2 (by decide!)⟩

end LikertMakeR
